import Mathlib

/-!
Shallow embedding of the `rag_papers` package (files `chunking.py` and
`answering.py`), together with proofs of the specification claims about it.
Python strings are modelled as `List Char`; Python ints as `Nat` (the
modelled code only ever stores non-negative integers in these fields).
-/

namespace RagPapers

/-- Characters treated as whitespace by the Python `str.strip` and regex
whitespace class used in this codebase (the ASCII whitespace set). -/
def isPySpace (c : Char) : Bool :=
  c == ' ' || c == '\t' || c == '\n' || c == '\r' || c == '\x0B' || c == '\x0C'

/-- Python `s.strip()`: drop leading and trailing whitespace. -/
def pyStrip (s : List Char) : List Char :=
  ((s.dropWhile isPySpace).reverse.dropWhile isPySpace).reverse

/-- Python slice `s[a:b]` for `0 ≤ a ≤ b` (as used in `chunk_page`). -/
def pySlice (s : List Char) (a b : Nat) : List Char :=
  (s.drop a).take (b - a)

/-- Decimal digit character for `d < 10`. -/
def digitChar (d : Nat) : Char := Char.ofNat (48 + d)

/-- Decimal digits of `n`, least significant first; `fuel ≥ n` makes the
recursion (on `fuel`, so that it unfolds by kernel reduction) complete. -/
def natDigitsRevGo : Nat → Nat → List Char
  | 0, _ => []
  | _ + 1, 0 => []
  | fuel + 1, n + 1 => digitChar ((n + 1) % 10) :: natDigitsRevGo fuel ((n + 1) / 10)

/-- Python `str(n)` for a non-negative int `n`: standard decimal notation. -/
def natToChars (n : Nat) : List Char :=
  if n = 0 then ['0'] else (natDigitsRevGo n n).reverse

/-- Numeric value of a least-significant-first digit list (used to prove
that decimal printing is injective and to give `json` number parsing its
semantics). -/
def digitsRevVal : List Char → Nat
  | [] => 0
  | c :: r => (c.toNat - 48) + 10 * digitsRevVal r

/-- One page of a PDF, as produced by `pdf_loader.load_pdf_pages`. -/
structure PDFPage where
  pdf_name : List Char
  page_number : Nat
  text : List Char
deriving DecidableEq, Repr

/-- One chunk of text plus metadata for citations (dataclass `TextChunk`). -/
structure TextChunk where
  chunk_id : List Char
  pdf_name : List Char
  page_number : Nat
  text : List Char
  char_start : Nat
  char_end : Nat
deriving DecidableEq, Repr

/-- The chunk id format string `f"{pdf_name}__p{page_number}__c{chunk_index}"`. -/
def mkChunkId (name : List Char) (page idx : Nat) : List Char :=
  name ++ ['_', '_', 'p'] ++ natToChars page ++ ['_', '_', 'c'] ++ natToChars idx

/-- The `while start < len(text)` loop of `chunk_page`.  The Python loop can
diverge when `overlap ≥ chunk_size`; the embedding bounds the recursion with
`fuel`, and for valid parameters the result is fuel independent (proved
below), so the fuel is invisible on every terminating run.  The update
`start = max(0, end - overlap)` is truncated `Nat` subtraction here. -/
def chunkPageLoop (name : List Char) (page : Nat) (text : List Char)
    (chunk_size overlap : Nat) : Nat → Nat → Nat → List TextChunk
  | 0, _, _ => []
  | fuel + 1, start, idx =>
    if start < text.length then
      let e := min (start + chunk_size) text.length
      let ct := pyStrip (pySlice text start e)
      let here : List TextChunk :=
        if ct = [] then []
        else [⟨mkChunkId name page idx, name, page, ct, start, e⟩]
      if e = text.length then here
      else here ++
        chunkPageLoop name page text chunk_size overlap fuel (e - overlap) (idx + 1)
    else []

/-- `chunk_page`: split a single `PDFPage` into overlapping character chunks. -/
def chunk_page (p : PDFPage) (chunk_size overlap : Nat) : List TextChunk :=
  if p.text = [] then []
  else chunkPageLoop p.pdf_name p.page_number p.text chunk_size overlap
    p.text.length 0 0

/-- `chunk_pages`: chunk a list of PDF pages, concatenating the results. -/
def chunk_pages (pages : List PDFPage) (chunk_size overlap : Nat) : List TextChunk :=
  pages.foldl (fun acc p => acc ++ chunk_page p chunk_size overlap) []

/-- The start-position update of one `chunk_page` loop iteration that does
not hit the end of the text: `start = max(0, min(start + chunk_size, len) - overlap)`. -/
def chunkNextStart (textLen chunk_size overlap start : Nat) : Nat :=
  min (start + chunk_size) textLen - overlap

/-- The `(charStart, charEnd)` spans of a chunk list. -/
def spansOf (l : List TextChunk) : List (Nat × Nat) :=
  l.map (fun c => (c.char_start, c.char_end))

/-- Lay a list of spans over `text` in order: each span contributes the part
of its slice not already covered by the previous spans (`covered` is the end
of the previously laid span). -/
def laySpansGo (text : List Char) : Nat → List (Nat × Nat) → List Char
  | _, [] => []
  | covered, (s, e) :: r => pySlice text (max covered s) e ++ laySpansGo text e r

/-- Lay all spans over `text` starting from offset 0. -/
def laySpans (text : List Char) (spans : List (Nat × Nat)) : List Char :=
  laySpansGo text 0 spans

/-- Does `c` end a sentence (`[.!?]` in the split regex)? -/
def isSentEnd (c : Char) : Bool := c == '.' || c == '!' || c == '?'

/-- Is the most recently read character (head of the reversed accumulator) a
sentence terminator?  This is the regex lookbehind `(?<=[.!?])`. -/
def headIsSentEnd : List Char → Bool
  | [] => false
  | p :: _ => isSentEnd p

/-- The scan of `re.split(r"(?<=[.!?])\s+", text)`: a maximal whitespace run
immediately preceded by `.`, `!` or `?` separates two parts and is dropped.
`acc` holds the current part in reverse; `skipping` is true while inside the
matched whitespace run (whose remaining characters are consumed one by one,
keeping the recursion structural). -/
def splitGo (skipping : Bool) (acc : List Char) : List Char → List (List Char)
  | [] => if skipping then [[]] else [acc.reverse]
  | c :: r =>
    if skipping then
      if isPySpace c then splitGo true [] r
      else splitGo false [c] r
    else
      if isPySpace c && headIsSentEnd acc then acc.reverse :: splitGo true [] r
      else splitGo false (c :: acc) r

/-- Python `text.replace("\n", " ")`. -/
def replaceNewlines (s : List Char) : List Char :=
  s.map (fun c => if c = '\n' then ' ' else c)

/-- `_split_into_sentences`: normalize newlines, strip, split on sentence
boundaries, strip each part and keep only parts of length at least 25. -/
def _split_into_sentences (text : List Char) : List (List Char) :=
  let t := pyStrip (replaceNewlines text)
  if t = [] then []
  else ((splitGo false [] t).map pyStrip).filter (fun s => 25 ≤ s.length)

/-- The regex class `[a-zA-Z0-9]`. -/
def isAlnumAscii (c : Char) : Bool :=
  (48 ≤ c.toNat && c.toNat ≤ 57) || (65 ≤ c.toNat && c.toNat ≤ 90) ||
    (97 ≤ c.toNat && c.toNat ≤ 122)

/-- The scan of `re.findall(r"[a-zA-Z0-9]+", s)`: `cur` holds the current
alphanumeric run in reverse (empty when outside a run). -/
def findTokensGo (cur : List Char) : List Char → List (List Char)
  | [] => if cur = [] then [] else [cur.reverse]
  | c :: r =>
    if isAlnumAscii c then findTokensGo (c :: cur) r
    else if cur = [] then findTokensGo [] r
    else cur.reverse :: findTokensGo [] r

/-- `re.findall(r"[a-zA-Z0-9]+", s)`: the maximal alphanumeric runs of `s`,
in order. -/
def findTokens (s : List Char) : List (List Char) := findTokensGo [] s

/-- ASCII model of Python `str.lower()` (the stop words and regex tokens in
this codebase are ASCII). -/
def lowerStr (s : List Char) : List Char := s.map Char.toLower

/-- The stop-word set of `_keywords`. -/
def stopWords : List (List Char) :=
  [("the".toList), ("is".toList), ("are".toList), ("a".toList), ("an".toList),
   ("and".toList), ("or".toList), ("to".toList), ("of".toList), ("in".toList),
   ("on".toList), ("for".toList), ("with".toList), ("what".toList),
   ("how".toList), ("why".toList), ("when".toList), ("where".toList),
   ("this".toList), ("that".toList), ("it".toList), ("about".toList),
   ("paper".toList)]

/-- `_keywords`: alphanumeric tokens of the lowered question that are not
stop words and have length at least 3. -/
def _keywords (question : List Char) : List (List Char) :=
  (findTokens (lowerStr question)).filter
    (fun w => !(stopWords.contains w) && 3 ≤ w.length)

/-- Does `s` start with `pat`? -/
def startsWith : List Char → List Char → Bool
  | [], _ => true
  | _ :: _, [] => false
  | a :: p, b :: s => a == b && startsWith p s

/-- Python `pat in s` substring containment, scanning all start positions. -/
def containsStr : List Char → List Char → Bool
  | [], pat => startsWith pat []
  | c :: r, pat => startsWith pat (c :: r) || containsStr r pat

/-- Propositional form of substring containment. -/
def SubstringOf (pat s : List Char) : Prop := ∃ l r, s = l ++ pat ++ r

/-- `_score_sentence`: the number of keyword occurrences of `kws` contained
in the lowered sentence (one per list entry). -/
def _score_sentence (sentence : List Char) (kws : List (List Char)) : Nat :=
  kws.foldl (fun score kw => if containsStr (lowerStr sentence) kw then score + 1 else score) 0

/-- One retrieved chunk (dataclass `RetrievedChunk`).  The two metadata
fields model `metadata.get("pdf_name")` and `metadata.get("page_number")`;
the `distance` field of the source is never read by `build_extractive_answer`
and is omitted. -/
structure RetrievedChunk where
  text : List Char
  meta_pdf_name : Option (List Char)
  meta_page_number : Option Nat
deriving DecidableEq, Repr

/-- The citation string `f"[{pdf_name} p.{page_number}]"` with the
`metadata.get` defaults `"unknown.pdf"` and `"?"`. -/
def citationOf (ch : RetrievedChunk) : List Char :=
  '[' :: (ch.meta_pdf_name.getD ("unknown.pdf".toList)) ++
    (' ' :: 'p' :: '.' ::
      (match ch.meta_page_number with
        | some n => natToChars n
        | none => ['?'])) ++ [']']

/-- One candidate tuple `(score, sent, citation)`. -/
structure Cand where
  score : Nat
  sent : List Char
  cite : List Char
deriving DecidableEq, Repr

/-- The candidates contributed by one retrieved chunk, in sentence order:
a sentence is kept when its score is positive or the keyword list is empty. -/
def chunkCands (kws : List (List Char)) (ch : RetrievedChunk) : List Cand :=
  (_split_into_sentences ch.text).filterMap (fun sent =>
    let score := _score_sentence sent kws
    if 0 < score ∨ kws = [] then some ⟨score, sent, citationOf ch⟩ else none)

/-- All candidate tuples, in traversal order: chunk order as received, then
sentence order within each chunk. -/
def candidatesOf (question : List Char) (chunks : List RetrievedChunk) : List Cand :=
  chunks.flatMap (chunkCands (_keywords question))

/-- Stable descending insertion: place `c` before the first element whose
score is at most `c.score` (elements inserted later in `sortCands` stem from
earlier list positions, so ties keep the original order). -/
def insertCand (c : Cand) : List Cand → List Cand
  | [] => [c]
  | d :: r => if d.score ≤ c.score then c :: d :: r else d :: insertCand c r

/-- The embedding of `candidates.sort(key=lambda x: x[0], reverse=True)`.
Python `list.sort` is stable and `reverse=True` keeps equal keys in their
original order, and a stable sort by a fixed key is unique, so any stable
descending sort models it; this one is insertion based. -/
def sortCands : List Cand → List Cand
  | [] => []
  | c :: r => insertCand c (sortCands r)

/-- The bullet string `f"- {sent} {citation}"`. -/
def fmtBullet (sent cite : List Char) : List Char :=
  '-' :: ' ' :: sent ++ ' ' :: cite

/-- The fixed fallback bullet. -/
def fallbackBullet : List Char :=
  ("- I couldn".toList) ++ [Char.ofNat 39] ++
    ("t extract a clear answer from the retrieved chunks. Try a more specific question.".toList)

/-- The selection loop of `build_extractive_answer`: skip sentences whose
lowered text was already seen, otherwise record the lowered text, append the
formatted bullet, and stop once `max_bullets` bullets exist (the length test
runs after the append, exactly as in the source). -/
def pickLoop (maxB : Nat) : List Cand → List (List Char) → List (List Char) → List (List Char)
  | [], _, bullets => bullets
  | c :: r, seen, bullets =>
    let key := lowerStr c.sent
    if seen.contains key then pickLoop maxB r seen bullets
    else
      let bullets' := bullets ++ [fmtBullet c.sent c.cite]
      if maxB ≤ bullets'.length then bullets'
      else pickLoop maxB r (key :: seen) bullets'

/-- `build_extractive_answer`: collect candidates, sort them best first,
pick up to `max_bullets` distinct bullets, and fall back to the fixed
message when nothing was picked. -/
def build_extractive_answer (question : List Char) (chunks : List RetrievedChunk)
    (max_bullets : Nat) : List (List Char) :=
  let cands := sortCands (candidatesOf question chunks)
  let bullets := pickLoop max_bullets cands [] []
  if bullets = [] then [fallbackBullet] else bullets

/-- Specification-side deduplication: keep the first occurrence of each
lowered sentence text, given the already seen keys. -/
def dedupByLower (seen : List (List Char)) : List Cand → List Cand
  | [] => []
  | c :: r =>
    if seen.contains (lowerStr c.sent) then dedupByLower seen r
    else c :: dedupByLower (lowerStr c.sent :: seen) r

/-- JSON values occurring in a serialized `TextChunk`: strings and
non-negative integers (the only shapes `asdict(TextChunk(...))` produces). -/
inductive JVal where
  | jstr : List Char → JVal
  | jnat : Nat → JVal
deriving DecidableEq, Repr

/-- Lowercase hexadecimal digit for `d < 16`. -/
def hexDigitChar (d : Nat) : Char :=
  if d < 10 then Char.ofNat (48 + d) else Char.ofNat (87 + d)

/-- The string escaping of `json.dumps(..., ensure_ascii=False)`: quote and
backslash are escaped, control characters get their short escapes or
`\u00xx`, every other character is emitted raw. -/
def jsonEscapeChar (c : Char) : List Char :=
  if c = '"' then ['\\', '"']
  else if c = '\\' then ['\\', '\\']
  else if c = '\x08' then ['\\', 'b']
  else if c = '\x0C' then ['\\', 'f']
  else if c = '\n' then ['\\', 'n']
  else if c = '\r' then ['\\', 'r']
  else if c = '\t' then ['\\', 't']
  else if c.toNat < 32 then
    ['\\', 'u', '0', '0', hexDigitChar (c.toNat / 16), hexDigitChar (c.toNat % 16)]
  else [c]

/-- Escape every character of a string. -/
def jsonEscape (s : List Char) : List Char := s.flatMap jsonEscapeChar

/-- A JSON string literal: quoted escaped text. -/
def jsonQuote (s : List Char) : List Char := '"' :: jsonEscape s ++ ['"']

/-- Serialization of one JSON value. -/
def encJVal : JVal → List Char
  | .jstr s => jsonQuote s
  | .jnat n => natToChars n

/-- One serialized `"key": value` object member followed by `tail` (helper
describing the shape of `dumpChunk`). -/
def memberEnc (k : List Char) (v : JVal) (tail : List Char) : List Char :=
  jsonQuote k ++ ':' :: ' ' :: encJVal v ++ tail

/-- The dataclass field name `chunk_id`. -/
def kChunkId : List Char := ("chunk_id".toList)

/-- The dataclass field name `pdf_name`. -/
def kPdfName : List Char := ("pdf_name".toList)

/-- The dataclass field name `page_number`. -/
def kPageNumber : List Char := ("page_number".toList)

/-- The dataclass field name `text`. -/
def kText : List Char := ("text".toList)

/-- The dataclass field name `char_start`. -/
def kCharStart : List Char := ("char_start".toList)

/-- The dataclass field name `char_end`. -/
def kCharEnd : List Char := ("char_end".toList)

/-- The six dataclass field names in declaration order. -/
def fieldNames : List (List Char) :=
  [kChunkId, kPdfName, kPageNumber, kText, kCharStart, kCharEnd]

/-- `json.dumps(asdict(chunk), ensure_ascii=False)` with the default
separators `", "` and `": "`; `asdict` yields the fields in declaration
order, so the line is the brace-wrapped `", "`-separated list of the six
`"key": value` members. -/
def dumpChunk (c : TextChunk) : List Char :=
  '\x7b' ::
    memberEnc kChunkId (.jstr c.chunk_id) (',' :: ' ' ::
      memberEnc kPdfName (.jstr c.pdf_name) (',' :: ' ' ::
        memberEnc kPageNumber (.jnat c.page_number) (',' :: ' ' ::
          memberEnc kText (.jstr c.text) (',' :: ' ' ::
            memberEnc kCharStart (.jnat c.char_start) (',' :: ' ' ::
              memberEnc kCharEnd (.jnat c.char_end) ['\x7d'])))))

/-- `save_chunks_jsonl`: one JSON object per line, newline terminated.  The
embedding models the produced file content; path handling and directory
creation of the source are filesystem effects outside the embedding. -/
def save_chunks_jsonl (chunks : List TextChunk) : List Char :=
  chunks.foldl (fun acc c => acc ++ dumpChunk c ++ ['\n']) []

/-- Drop leading JSON whitespace. -/
def skipWs (l : List Char) : List Char := l.dropWhile isPySpace

/-- Is `c` a decimal digit? -/
def isDigitCh (c : Char) : Bool := 48 ≤ c.toNat && c.toNat ≤ 57

/-- Value of one hexadecimal digit. -/
def hexVal (c : Char) : Option Nat :=
  if 48 ≤ c.toNat && c.toNat ≤ 57 then some (c.toNat - 48)
  else if 97 ≤ c.toNat && c.toNat ≤ 102 then some (c.toNat - 87)
  else if 65 ≤ c.toNat && c.toNat ≤ 70 then some (c.toNat - 55)
  else none

/-- Parse the body of a JSON string after the opening quote, undoing the
escapes.  `fuel` bounds the recursion; any value above the count of decoded
characters is enough, each step consumes at least one input character.  The
serializer only emits `\u` escapes below `0x20`, so plain `Char.ofNat` is
faithful on every input the codec itself produces. -/
def parseStrBody : Nat → List Char → Option (List Char × List Char)
  | 0, _ => none
  | _ + 1, [] => none
  | fuel + 1, c :: rest =>
    if c = '"' then some ([], rest)
    else if c = '\\' then
      match rest with
      | [] => none
      | e :: r =>
        if e = '"' then (parseStrBody fuel r).map (fun p => ('"' :: p.1, p.2))
        else if e = '\\' then (parseStrBody fuel r).map (fun p => ('\\' :: p.1, p.2))
        else if e = '/' then (parseStrBody fuel r).map (fun p => ('/' :: p.1, p.2))
        else if e = 'b' then (parseStrBody fuel r).map (fun p => ('\x08' :: p.1, p.2))
        else if e = 'f' then (parseStrBody fuel r).map (fun p => ('\x0C' :: p.1, p.2))
        else if e = 'n' then (parseStrBody fuel r).map (fun p => ('\n' :: p.1, p.2))
        else if e = 'r' then (parseStrBody fuel r).map (fun p => ('\r' :: p.1, p.2))
        else if e = 't' then (parseStrBody fuel r).map (fun p => ('\t' :: p.1, p.2))
        else if e = 'u' then
          match r with
          | h1 :: h2 :: h3 :: h4 :: r2 =>
            match hexVal h1, hexVal h2, hexVal h3, hexVal h4 with
            | some a, some b, some c2, some d =>
              (parseStrBody fuel r2).map
                (fun p => (Char.ofNat (((a * 16 + b) * 16 + c2) * 16 + d) :: p.1, p.2))
            | _, _, _, _ => none
          | _ => none
        else none
    else (parseStrBody fuel rest).map (fun p => (c :: p.1, p.2))

/-- Parse a JSON string literal. -/
def parseJString : List Char → Option (List Char × List Char)
  | [] => none
  | c :: r => if c = '"' then parseStrBody (r.length + 1) r else none

/-- Parse a JSON non-negative integer: a maximal nonempty digit run. -/
def parseJNum (l : List Char) : Option (Nat × List Char) :=
  let ds := l.takeWhile isDigitCh
  if ds = [] then none
  else some (ds.foldl (fun a c => a * 10 + (c.toNat - 48)) 0, l.dropWhile isDigitCh)

/-- Parse one JSON value of the shapes a serialized chunk contains: a
string when the input starts with a quote, otherwise a number. -/
def parseJVal (l : List Char) : Option (JVal × List Char) :=
  match l with
  | [] => none
  | c :: r =>
    if c = '"' then (parseStrBody (r.length + 1) r).map (fun p => (JVal.jstr p.1, p.2))
    else (parseJNum (c :: r)).map (fun p => (JVal.jnat p.1, p.2))

/-- Parse the members of a JSON object after the opening brace, at least one
member; `fuel` bounds the member count. -/
def parseMembers : Nat → List Char → Option (List (List Char × JVal) × List Char)
  | 0, _ => none
  | fuel + 1, l =>
    match parseJString l with
    | none => none
    | some (k, r1) =>
      match skipWs r1 with
      | [] => none
      | c3 :: r3 =>
        if c3 = ':' then
          match parseJVal (skipWs r3) with
          | none => none
          | some (v, r5) =>
            match skipWs r5 with
            | [] => none
            | c7 :: r7 =>
              if c7 = ',' then
                (parseMembers fuel (skipWs r7)).map (fun p => ((k, v) :: p.1, p.2))
              else if c7 = '\x7d' then some ([(k, v)], r7)
              else none
        else none

/-- Parse one JSON object, the only top-level shape `load_chunks_jsonl`
meets. -/
def parseObj (l : List Char) : Option (List (List Char × JVal) × List Char) :=
  match skipWs l with
  | [] => none
  | c :: r =>
    if c = '\x7b' then
      match skipWs r with
      | [] => parseMembers 1 []
      | c2 :: r2 =>
        if c2 = '\x7d' then some ([], r2)
        else parseMembers ((c2 :: r2).length + 1) (c2 :: r2)
    else none

/-- Last-wins association lookup, matching Python dict construction from a
member sequence. -/
def dictGet (k : List Char) (l : List (List Char × JVal)) : Option JVal :=
  l.foldl (fun acc kv => if kv.1 = k then some kv.2 else acc) none

/-- `TextChunk(**obj)`: succeeds exactly when the key set is the six
dataclass fields.  The Python dataclass performs no runtime type check; the
typed embedding additionally requires each field value to have the shape the
dataclass declares, which every record produced by the codec has. -/
def applyKwargs (l : List (List Char × JVal)) : Option TextChunk :=
  if (∀ kv ∈ l, kv.1 ∈ fieldNames) ∧ (∀ k ∈ fieldNames, k ∈ l.map Prod.fst) then
    match dictGet kChunkId l, dictGet kPdfName l, dictGet kPageNumber l,
        dictGet kText l, dictGet kCharStart l, dictGet kCharEnd l with
    | some (.jstr a), some (.jstr b), some (.jnat p), some (.jstr t),
        some (.jnat s), some (.jnat e) => some ⟨a, b, p, t, s, e⟩
    | _, _, _, _, _, _ => none
  else none

/-- `json.loads(line)` followed by `TextChunk(**obj)`: parse one object and
allow only trailing whitespace. -/
def parseChunkLine (l : List Char) : Option TextChunk :=
  match parseObj l with
  | none => none
  | some (obj, rest) => if skipWs rest = [] then applyKwargs obj else none

/-- File iteration `for line in f`: split after each newline, keeping the
terminator with the line; a final unterminated line is yielded when
nonempty. -/
def splitLinesGo (acc : List Char) : List Char → List (List Char)
  | [] => if acc = [] then [] else [acc.reverse]
  | c :: r =>
    if c = '\n' then (acc.reverse ++ ['\n']) :: splitLinesGo [] r
    else splitLinesGo (c :: acc) r

/-- Split a file content into lines. -/
def splitLines (s : List Char) : List (List Char) := splitLinesGo [] s

/-- Parse every line; `json.loads` raises on a malformed line, so any
failure fails the whole load. -/
def loadLinesGo : List (List Char) → Option (List TextChunk)
  | [] => some []
  | l :: r =>
    match parseChunkLine l with
    | none => none
    | some c => (loadLinesGo r).map (fun cs => c :: cs)

/-- `load_chunks_jsonl` applied to a file content. -/
def load_chunks_jsonl (s : List Char) : Option (List TextChunk) :=
  loadLinesGo (splitLines s)

/-- Concrete page whose middle chunk window is entirely whitespace (used
with `chunk_size = 4`, `overlap = 1`). -/
def cexPage : PDFPage := ⟨("a.pdf".toList), 1, ("ab      cd".toList)⟩

/-- Concrete page without any whitespace. -/
def densePage : PDFPage := ⟨("a.pdf".toList), 1, ("abcdefgh".toList)⟩

/-- Concrete second page with a different name and page number. -/
def densePage2 : PDFPage := ⟨("b.pdf".toList), 2, ("wxyz".toList)⟩

/-- Concrete retrieved chunk containing an embedded newline inside one long
sentence. -/
def nlChunk : RetrievedChunk :=
  ⟨("alpha beta gamma\ndelta epsilon zeta one.".toList), none, none⟩

/-- The sentence the extractor produces from `nlChunk`: the newline has
become a space. -/
def nlSent : List Char := ("alpha beta gamma delta epsilon zeta one.".toList)

/-- Concrete retrieved chunk with one long sentence and no newline. -/
def plainChunk : RetrievedChunk :=
  ⟨("this is one sufficiently long example sentence.".toList), none, none⟩

/-- The citation rendered for metadata without entries. -/
def unknownCite : List Char := ("[unknown.pdf p.?]".toList)

/-! ### Generic helper lemmas -/

theorem count_foldl {α : Type} (p : α → Bool) (l : List α) : ∀ n : Nat,
    l.foldl (fun a x => if p x then a + 1 else a) n = n + l.countP p := by
  induction l with
  | nil => intro n; simp
  | cons x l ih =>
    intro n
    by_cases h : p x = true
    · simp [List.foldl_cons, h, ih, List.countP_cons]
      omega
    · simp [List.foldl_cons, h, ih, List.countP_cons]

theorem score_eq_countP (s : List Char) (kws : List (List Char)) :
    _score_sentence s kws = kws.countP (fun kw => containsStr (lowerStr s) kw) := by
  unfold _score_sentence
  rw [count_foldl]
  simp

theorem dropWhile_head_false {p : Char → Bool} {l : List Char} {c : Char}
    (h : (l.dropWhile p).head? = some c) : p c = false := by
  induction l with
  | nil => simp at h
  | cons x l ih =>
    rw [List.dropWhile_cons] at h
    by_cases hx : p x = true
    · exact ih (by simpa [hx] using h)
    · rw [if_neg hx] at h
      simp only [List.head?_cons, Option.some.injEq] at h
      rw [← h]
      simpa using hx

theorem dropWhile_eq_self_of_head {p : Char → Bool} {l : List Char}
    (h : ∀ c, l.head? = some c → p c = false) : l.dropWhile p = l := by
  cases l with
  | nil => rfl
  | cons x l => rw [List.dropWhile_cons, h x rfl]; simp

theorem getLast?_of_suffix {l m : List Char} (h : l <:+ m) {c : Char}
    (hl : l.getLast? = some c) : m.getLast? = some c := by
  obtain ⟨pre, rfl⟩ := h
  rw [List.getLast?_append, hl]
  rfl

theorem pyStrip_head_ne {s : List Char} {c : Char}
    (h : (pyStrip s).head? = some c) : isPySpace c = false := by
  unfold pyStrip at h
  rw [List.head?_reverse] at h
  have h2 : ((s.dropWhile isPySpace).reverse).getLast? = some c :=
    getLast?_of_suffix (List.dropWhile_suffix isPySpace) h
  rw [List.getLast?_reverse] at h2
  exact dropWhile_head_false h2

theorem pyStrip_getLast_ne {s : List Char} {c : Char}
    (h : (pyStrip s).getLast? = some c) : isPySpace c = false := by
  unfold pyStrip at h
  rw [List.getLast?_reverse] at h
  exact dropWhile_head_false h

theorem pyStrip_of_ends {l : List Char}
    (h1 : ∀ c, l.head? = some c → isPySpace c = false)
    (h2 : ∀ c, l.getLast? = some c → isPySpace c = false) : pyStrip l = l := by
  unfold pyStrip
  rw [dropWhile_eq_self_of_head h1,
    dropWhile_eq_self_of_head (fun c hc => h2 c (by rwa [List.head?_reverse] at hc)),
    List.reverse_reverse]

theorem pyStrip_idem (s : List Char) : pyStrip (pyStrip s) = pyStrip s :=
  pyStrip_of_ends (fun _ h => pyStrip_head_ne h) (fun _ h => pyStrip_getLast_ne h)

/-! ### Substring machinery -/

theorem startsWith_iff (p : List Char) : ∀ s, startsWith p s = true ↔ ∃ r, s = p ++ r := by
  induction p with
  | nil =>
    intro s
    simp [startsWith]
  | cons a p ih =>
    intro s
    cases s with
    | nil => simp [startsWith]
    | cons b s' =>
      rw [startsWith, Bool.and_eq_true, beq_iff_eq, ih]
      constructor
      · rintro ⟨rfl, r, rfl⟩
        exact ⟨r, rfl⟩
      · rintro ⟨r, hr⟩
        rw [List.cons_append] at hr
        cases hr
        exact ⟨rfl, r, rfl⟩

theorem containsStr_iff : ∀ s pat : List Char, containsStr s pat = true ↔ SubstringOf pat s := by
  intro s
  induction s with
  | nil =>
    intro pat
    rw [containsStr, startsWith_iff]
    constructor
    · rintro ⟨r, hr⟩
      exact ⟨[], r, by simpa using hr⟩
    · rintro ⟨l, r, hr⟩
      refine ⟨r, ?_⟩
      rw [List.nil_eq, List.append_assoc, List.append_eq_nil] at hr
      simp [hr.1, hr.2]
  | cons c s' ih =>
    intro pat
    rw [containsStr, Bool.or_eq_true, startsWith_iff, ih]
    constructor
    · rintro (⟨r, hr⟩ | ⟨l, r, hr⟩)
      · exact ⟨[], r, by simpa using hr⟩
      · exact ⟨c :: l, r, by simp [hr]⟩
    · rintro ⟨l, r, hr⟩
      cases l with
      | nil => exact Or.inl ⟨r, by simpa using hr⟩
      | cons x l' =>
        simp only [List.cons_append, List.cons.injEq] at hr
        exact Or.inr ⟨l', r, hr.2⟩

theorem substring_extend {a m : List Char} (l r : List Char) (h : SubstringOf a m) :
    SubstringOf a (l ++ m ++ r) := by
  obtain ⟨x, y, rfl⟩ := h
  exact ⟨l ++ x, y ++ r, by simp⟩

theorem substring_trans {a b c : List Char} (hab : SubstringOf a b) (hbc : SubstringOf b c) :
    SubstringOf a c := by
  obtain ⟨x, y, rfl⟩ := hab
  obtain ⟨u, v, rfl⟩ := hbc
  exact ⟨u ++ x, y ++ v, by simp⟩

theorem pyStrip_substring (s : List Char) : SubstringOf (pyStrip s) s := by
  unfold pyStrip
  refine ⟨s.takeWhile isPySpace,
    ((s.dropWhile isPySpace).reverse.takeWhile isPySpace).reverse, ?_⟩
  rw [List.append_assoc, ← List.reverse_append, List.takeWhile_append_dropWhile,
    List.reverse_reverse, List.takeWhile_append_dropWhile]

/-! ### Decimal printing -/

theorem digitChar_toNat {d : Nat} (h : d < 10) : (digitChar d).toNat = 48 + d := by
  interval_cases d <;> decide

theorem digitChar_isDigit {d : Nat} (h : d < 10) : isDigitCh (digitChar d) = true := by
  interval_cases d <;> decide

theorem natDigitsRevGo_val : ∀ fuel n, n ≤ fuel →
    digitsRevVal (natDigitsRevGo fuel n) = n := by
  intro fuel
  induction fuel with
  | zero =>
    intro n h
    interval_cases n
    rfl
  | succ f ih =>
    intro n h
    cases n with
    | zero => rfl
    | succ m =>
      have hdiv : (m + 1) / 10 < m + 1 := Nat.div_lt_self (Nat.succ_pos m) (by norm_num)
      rw [natDigitsRevGo, digitsRevVal,
        digitChar_toNat (Nat.mod_lt _ (by norm_num)), ih ((m + 1) / 10) (by omega)]
      omega

theorem natToChars_val (n : Nat) : digitsRevVal (natToChars n).reverse = n := by
  unfold natToChars
  by_cases h : n = 0
  · subst h
    decide
  · rw [if_neg h, List.reverse_reverse]
    exact natDigitsRevGo_val n n le_rfl

theorem natToChars_inj {m n : Nat} (h : natToChars m = natToChars n) : m = n := by
  have hm := natToChars_val m
  rw [h, natToChars_val] at hm
  exact hm.symm

theorem natDigitsRevGo_digits : ∀ fuel n, ∀ c ∈ natDigitsRevGo fuel n,
    isDigitCh c = true := by
  intro fuel
  induction fuel with
  | zero =>
    intro n c hc
    simp [natDigitsRevGo] at hc
  | succ f ih =>
    intro n c hc
    cases n with
    | zero => simp [natDigitsRevGo] at hc
    | succ m =>
      rw [natDigitsRevGo, List.mem_cons] at hc
      rcases hc with rfl | hc
      · exact digitChar_isDigit (Nat.mod_lt _ (by norm_num))
      · exact ih _ c hc

theorem natToChars_digits (n : Nat) : ∀ c ∈ natToChars n, isDigitCh c = true := by
  intro c hc
  unfold natToChars at hc
  by_cases h : n = 0
  · rw [if_pos h] at hc
    simp at hc
    subst hc
    decide
  · rw [if_neg h, List.mem_reverse] at hc
    exact natDigitsRevGo_digits n n c hc

theorem natToChars_ne_nil (n : Nat) : natToChars n ≠ [] := by
  unfold natToChars
  by_cases h : n = 0
  · simp [h]
  · rw [if_neg h]
    cases n with
    | zero => exact absurd rfl h
    | succ m => simp [natDigitsRevGo]

/-! ### Chunk id injectivity -/

theorem digits_marker_inj {m : Char} (hm : isDigitCh m = false) :
    ∀ d1 d2 r1 r2 : List Char, (∀ c ∈ d1, isDigitCh c = true) →
    (∀ c ∈ d2, isDigitCh c = true) →
    d1 ++ m :: r1 = d2 ++ m :: r2 → d1 = d2 ∧ r1 = r2 := by
  intro d1
  induction d1 with
  | nil =>
    intro d2 r1 r2 _ h2 heq
    cases d2 with
    | nil => simpa using heq
    | cons b d2' =>
      simp only [List.nil_append, List.cons_append, List.cons.injEq] at heq
      rw [heq.1] at hm
      rw [h2 b (List.mem_cons_self b d2')] at hm
      cases hm
  | cons a d1' ih =>
    intro d2 r1 r2 h1 h2 heq
    cases d2 with
    | nil =>
      simp only [List.cons_append, List.nil_append, List.cons.injEq] at heq
      rw [← heq.1] at hm
      rw [h1 a (List.mem_cons_self a d1')] at hm
      cases hm
    | cons b d2' =>
      simp only [List.cons_append, List.cons.injEq] at heq
      obtain ⟨rfl, heq'⟩ := heq
      obtain ⟨hd, hr⟩ := ih d2' r1 r2 (fun c hc => h1 c (List.mem_cons_of_mem _ hc))
        (fun c hc => h2 c (List.mem_cons_of_mem _ hc)) heq'
      exact ⟨by rw [hd], hr⟩

theorem mkChunkId_inj {n1 n2 : List Char} {p1 p2 i1 i2 : Nat}
    (h : mkChunkId n1 p1 i1 = mkChunkId n2 p2 i2) : n1 = n2 ∧ p1 = p2 ∧ i1 = i2 := by
  have h' := congrArg List.reverse h
  unfold mkChunkId at h'
  simp only [List.reverse_append, List.reverse_cons, List.reverse_nil, List.nil_append,
    List.append_assoc, List.cons_append, List.singleton_append] at h'
  obtain ⟨hi, hrest⟩ := digits_marker_inj (m := 'c') (by decide)
    (natToChars i1).reverse (natToChars i2).reverse _ _
    (fun c hc => natToChars_digits i1 c (List.mem_reverse.mp hc))
    (fun c hc => natToChars_digits i2 c (List.mem_reverse.mp hc)) h'
  have hi' : i1 = i2 := natToChars_inj (List.reverse_injective hi)
  simp only [List.cons.injEq, true_and] at hrest
  obtain ⟨hp, hrest2⟩ := digits_marker_inj (m := 'p') (by decide)
    (natToChars p1).reverse (natToChars p2).reverse _ _
    (fun c hc => natToChars_digits p1 c (List.mem_reverse.mp hc))
    (fun c hc => natToChars_digits p2 c (List.mem_reverse.mp hc)) hrest
  have hp' : p1 = p2 := natToChars_inj (List.reverse_injective hp)
  simp only [List.cons.injEq, true_and] at hrest2
  exact ⟨List.reverse_injective hrest2, hp', hi'⟩

/-! ### C10: sentence splitting never returns short fragments -/

/-- C10: every fragment returned by `_split_into_sentences` has trimmed
length at least 25, and splitting the empty string returns the empty list. -/
theorem split_sentences_min_length :
    _split_into_sentences [] = [] ∧
    ∀ text s, s ∈ _split_into_sentences text → 25 ≤ (pyStrip s).length := by
  refine ⟨rfl, ?_⟩
  intro text s hs
  unfold _split_into_sentences at hs
  by_cases h : pyStrip (replaceNewlines text) = []
  · simp [h] at hs
  · simp only [h, if_false, List.mem_filter, List.mem_map, decide_eq_true_eq] at hs
    obtain ⟨⟨t', _, rfl⟩, hlen⟩ := hs
    rwa [pyStrip_idem]

/-- Witness for C10 at a concrete input. -/
theorem split_sentences_min_length_witness :
    (("this is one sufficiently long example sentence.".toList) ∈
      _split_into_sentences plainChunk.text) ∧
    25 ≤ (pyStrip ("this is one sufficiently long example sentence.".toList)).length :=
  ⟨by decide, split_sentences_min_length.2 plainChunk.text _ (by decide)⟩

/-! ### C9: sentence scoring under keyword reordering and duplication -/

/-- C9 (corrected): duplicated keywords are counted once per occurrence, so
deduplicating the keyword list changes the score. -/
theorem score_dedup_cex :
    ([("abc".toList), ("abc".toList)] : List (List Char)).dedup = [("abc".toList)] ∧
    _score_sentence ("abc".toList) (([("abc".toList), ("abc".toList)] : List (List Char)).dedup) ≠
      _score_sentence ("abc".toList) [("abc".toList), ("abc".toList)] := by
  constructor <;> decide

/-- C9 (amended): the score is invariant under any permutation of the
keyword list; each list entry contributes once when contained in the lowered
sentence, so duplicated entries contribute once per occurrence. -/
theorem score_perm_invariant (s : List Char) (kws kws' : List (List Char))
    (h : kws.Perm kws') : _score_sentence s kws = _score_sentence s kws' := by
  rw [score_eq_countP, score_eq_countP]
  exact h.countP_eq _

/-- Witness for C9 at a concrete permutation. -/
theorem score_perm_invariant_witness :
    (([("abc".toList), ("de".toList)] : List (List Char)).Perm
      [("de".toList), ("abc".toList)]) ∧
    _score_sentence ("x abc".toList) [("abc".toList), ("de".toList)] =
      _score_sentence ("x abc".toList) [("de".toList), ("abc".toList)] :=
  ⟨by decide, score_perm_invariant _ _ _ (by decide)⟩

/-! ### C8: missing parameter validation and loop termination -/

/-- C8: the source validates nothing (no `ConfigurationError` exists in the
repository); with `overlap ≥ chunk_size` one loop iteration does not advance
the start position, so the `while` loop diverges, while for valid parameters
the loop terminates: the fuel embedding is fuel independent above the length
of the text. -/
theorem chunk_param_validation :
    (∀ len cs ov s, cs ≤ ov → chunkNextStart len cs ov s ≤ s) ∧
    chunkNextStart 5 2 2 0 = 0 ∧
    (∀ name page text cs ov f1 f2 start idx, 0 < cs → ov < cs →
      text.length ≤ start + f1 → text.length ≤ start + f2 →
      chunkPageLoop name page text cs ov f1 start idx =
      chunkPageLoop name page text cs ov f2 start idx) := by
  refine ⟨?_, rfl, ?_⟩
  · intro len cs ov s h
    unfold chunkNextStart
    omega
  · intro name page text cs ov f1 f2 start idx hcs hov h1 h2
    induction f1 generalizing f2 start idx with
    | zero =>
      cases f2 with
      | zero => rfl
      | succ g2 =>
        rw [chunkPageLoop, chunkPageLoop]
        rw [if_neg (by omega)]
    | succ g1 ih =>
      cases f2 with
      | zero =>
        rw [chunkPageLoop, chunkPageLoop]
        rw [if_neg (by omega)]
      | succ g2 =>
        rw [chunkPageLoop, chunkPageLoop]
        by_cases hs : start < text.length
        · rw [if_pos hs, if_pos hs]
          by_cases he : min (start + cs) text.length = text.length
          · rw [if_pos he, if_pos he]
          · rw [if_neg he, if_neg he]
            have : min (start + cs) text.length - ov ≥ start + 1 := by omega
            rw [ih g2 (min (start + cs) text.length - ov) (idx + 1)
              (by omega) (by omega)]
        · rw [if_neg hs, if_neg hs]

/-- Witness for C8 at concrete inputs. -/
theorem chunk_param_validation_witness :
    chunkNextStart 9 3 7 4 ≤ 4 ∧
    chunkPageLoop ("x".toList) 1 ("abcdef".toList) 3 1 6 0 0 =
      chunkPageLoop ("x".toList) 1 ("abcdef".toList) 3 1 99 0 0 :=
  ⟨chunk_param_validation.1 9 3 7 4 (by decide),
   chunk_param_validation.2.2 _ 1 _ 3 1 6 99 0 0 (by decide) (by decide)
     (by decide) (by decide)⟩

/-! ### Chunk loop invariants -/

theorem chunkPageLoop_mem {name : List Char} {page : Nat} {text : List Char}
    {cs ov : Nat} (hcs : 0 < cs) (hov : ov < cs) :
    ∀ fuel start idx c, c ∈ chunkPageLoop name page text cs ov fuel start idx →
      start ≤ c.char_start ∧ c.char_start < c.char_end ∧
      c.char_end = min (c.char_start + cs) text.length ∧
      c.text = pyStrip (pySlice text c.char_start c.char_end) ∧ c.text ≠ [] ∧
      c.pdf_name = name ∧ c.page_number = page ∧
      ∃ j, idx ≤ j ∧ c.chunk_id = mkChunkId name page j := by
  intro fuel
  induction fuel with
  | zero =>
    intro start idx c hc
    simp [chunkPageLoop] at hc
  | succ f ih =>
    intro start idx c hc
    simp only [chunkPageLoop] at hc
    by_cases hs : start < text.length
    · rw [if_pos hs] at hc
      by_cases hemp : pyStrip (pySlice text start (min (start + cs) text.length)) = []
      · rw [if_pos hemp] at hc
        by_cases he : min (start + cs) text.length = text.length
        · rw [if_pos he] at hc
          simp at hc
        · rw [if_neg he, List.nil_append] at hc
          obtain ⟨ha, hb, hc3, hd, hee, hf, hg, j, hj1, hj2⟩ :=
            ih (min (start + cs) text.length - ov) (idx + 1) c hc
          exact ⟨by omega, hb, hc3, hd, hee, hf, hg, j, by omega, hj2⟩
      · rw [if_neg hemp] at hc
        by_cases he : min (start + cs) text.length = text.length
        · rw [if_pos he] at hc
          simp only [List.mem_singleton] at hc
          subst hc
          refine ⟨le_rfl, ?_, rfl, rfl, hemp, rfl, rfl, idx, le_rfl, rfl⟩
          show start < min (start + cs) text.length
          omega
        · rw [if_neg he, List.singleton_append, List.mem_cons] at hc
          rcases hc with rfl | hc
          · refine ⟨le_rfl, ?_, rfl, rfl, hemp, rfl, rfl, idx, le_rfl, rfl⟩
            show start < min (start + cs) text.length
            omega
          · obtain ⟨ha, hb, hc3, hd, hee, hf, hg, j, hj1, hj2⟩ :=
              ih (min (start + cs) text.length - ov) (idx + 1) c hc
            exact ⟨by omega, hb, hc3, hd, hee, hf, hg, j, by omega, hj2⟩
    · rw [if_neg hs] at hc
      simp at hc

theorem chunkPageLoop_pairwise {name : List Char} {page : Nat} {text : List Char}
    {cs ov : Nat} (hcs : 0 < cs) (hov : ov < cs) :
    ∀ fuel start idx, (chunkPageLoop name page text cs ov fuel start idx).Pairwise
      (fun a b => a.char_start < b.char_start ∧ a.chunk_id ≠ b.chunk_id) := by
  intro fuel
  induction fuel with
  | zero =>
    intro start idx
    simp [chunkPageLoop]
  | succ f ih =>
    intro start idx
    simp only [chunkPageLoop]
    by_cases hs : start < text.length
    · rw [if_pos hs]
      by_cases hemp : pyStrip (pySlice text start (min (start + cs) text.length)) = []
      · rw [if_pos hemp]
        by_cases he : min (start + cs) text.length = text.length
        · rw [if_pos he]
          simp
        · rw [if_neg he, List.nil_append]
          exact ih _ _
      · rw [if_neg hemp]
        by_cases he : min (start + cs) text.length = text.length
        · rw [if_pos he]
          simp
        · rw [if_neg he, List.singleton_append, List.pairwise_cons]
          refine ⟨?_, ih _ _⟩
          intro b hb
          obtain ⟨hb1, _, _, _, _, _, _, j, hj1, hj2⟩ :=
            chunkPageLoop_mem hcs hov f (min (start + cs) text.length - ov) (idx + 1) b hb
          constructor
          · show start < b.char_start
            omega
          · show mkChunkId name page idx ≠ b.chunk_id
            rw [hj2]
            intro hcontra
            obtain ⟨_, _, hji⟩ := mkChunkId_inj hcontra
            omega
    · rw [if_neg hs]
      simp

/-! ### C3: chunk record invariants -/

/-- C3: every chunk produced by `chunk_page` with valid parameters satisfies
`charStart < charEnd ≤ len(pageText)`, `charEnd` is the pre-trim window end
`min(charStart + chunkSize, len)`, its text is the trimmed window substring
and is non-empty, and chunks appear in strictly increasing `charStart`
order (`0 ≤ charStart` holds by the `Nat` encoding). -/
theorem chunk_page_invariants (p : PDFPage) (cs ov : Nat) (hcs : 0 < cs) (hov : ov < cs) :
    (∀ c ∈ chunk_page p cs ov,
      c.char_start < c.char_end ∧ c.char_end ≤ p.text.length ∧
      c.char_end = min (c.char_start + cs) p.text.length ∧
      c.text = pyStrip (pySlice p.text c.char_start c.char_end) ∧ c.text ≠ []) ∧
    (chunk_page p cs ov).Pairwise (fun a b => a.char_start < b.char_start) := by
  unfold chunk_page
  by_cases h : p.text = []
  · simp [h]
  · rw [if_neg h]
    constructor
    · intro c hc
      obtain ⟨_, h2, h3, h4, h5, _, _, _⟩ :=
        chunkPageLoop_mem hcs hov p.text.length 0 0 c hc
      exact ⟨h2, by omega, h3, h4, h5⟩
    · exact (chunkPageLoop_pairwise hcs hov p.text.length 0 0).imp (fun h => h.1)

/-- Witness for C3 at a concrete input. -/
theorem chunk_page_invariants_witness :
    (chunk_page densePage 3 1).Pairwise (fun a b => a.char_start < b.char_start) :=
  (chunk_page_invariants densePage 3 1 (by decide) (by decide)).2

/-! ### C1: window layout and text reconstruction -/

theorem pySlice_glue (t : List Char) {a b c : Nat} (hab : a ≤ b) (hbc : b ≤ c) :
    pySlice t a b ++ pySlice t b c = pySlice t a c := by
  unfold pySlice
  have h : c - a = (b - a) + (c - b) := by omega
  rw [h, List.take_add, List.drop_drop]
  have h2 : a + (b - a) = b := by omega
  rw [h2]

theorem chunkPageLoop_spans {name : List Char} {page : Nat} {text : List Char}
    {cs ov : Nat} (hcs : 0 < cs) (hov : ov < cs)
    (hw : ∀ s, s < text.length →
      pyStrip (pySlice text s (min (s + cs) text.length)) ≠ []) :
    ∀ fuel start idx, start < text.length → text.length ≤ start + fuel →
      (spansOf (chunkPageLoop name page text cs ov fuel start idx)).head? =
        some (start, min (start + cs) text.length) ∧
      (∀ pr ∈ spansOf (chunkPageLoop name page text cs ov fuel start idx),
        pr.2 = min (pr.1 + cs) text.length) ∧
      List.Chain' (fun a b => b.1 = a.1 + (cs - ov) ∧ b.1 + ov = a.2)
        (spansOf (chunkPageLoop name page text cs ov fuel start idx)) ∧
      (∃ last, (spansOf (chunkPageLoop name page text cs ov fuel start idx)).getLast? =
        some last ∧ last.2 = text.length) ∧
      (∀ covered, start ≤ covered → covered ≤ min (start + cs) text.length →
        laySpansGo text covered (spansOf (chunkPageLoop name page text cs ov fuel start idx)) =
          pySlice text covered text.length) := by
  intro fuel
  induction fuel with
  | zero =>
    intro start idx h1 h2
    omega
  | succ f ih =>
    intro start idx h1 h2
    simp only [chunkPageLoop, if_pos h1, if_neg (hw start h1)]
    by_cases he : min (start + cs) text.length = text.length
    · rw [if_pos he]
      refine ⟨rfl, ?_, ?_, ?_, ?_⟩
      · intro pr hpr
        simp only [spansOf, List.map_cons, List.map_nil, List.mem_singleton] at hpr
        subst hpr
        rfl
      · simp [spansOf]
      · exact ⟨(start, min (start + cs) text.length), rfl, he⟩
      · intro covered hc1 hc2
        show pySlice text (max covered start) (min (start + cs) text.length) ++
          laySpansGo text (min (start + cs) text.length) [] = pySlice text covered text.length
        rw [laySpansGo, List.append_nil, Nat.max_eq_left hc1, he]
    · rw [if_neg he, List.singleton_append]
      have he' : min (start + cs) text.length = start + cs := by omega
      have hlt : start + cs < text.length := by omega
      obtain ⟨ihh, ihall, ihchain, ihlast, ihlay⟩ :=
        ih (min (start + cs) text.length - ov) (idx + 1) (by omega) (by omega)
      simp only [spansOf, List.map_cons] at ihh ihall ihchain ihlast ihlay ⊢
      refine ⟨rfl, ?_, ?_, ?_, ?_⟩
      · intro pr hpr
        rcases List.mem_cons.mp hpr with rfl | hpr
        · rfl
        · exact ihall pr hpr
      · rw [List.chain'_cons']
        refine ⟨?_, ihchain⟩
        intro y hy
        rw [ihh] at hy
        cases hy
        constructor
        · show min (start + cs) text.length - ov = start + (cs - ov)
          omega
        · show min (start + cs) text.length - ov + ov = min (start + cs) text.length
          omega
      · obtain ⟨last, hl1, hl2⟩ := ihlast
        refine ⟨last, ?_, hl2⟩
        cases hmap : (chunkPageLoop name page text cs ov f
            (min (start + cs) text.length - ov) (idx + 1)).map
            (fun c => (c.char_start, c.char_end)) with
        | nil => rw [hmap, List.head?_nil] at ihh; cases ihh
        | cons x xs =>
          rw [hmap] at hl1
          rw [List.getLast?_cons_cons]
          exact hl1
      · intro covered hc1 hc2
        show pySlice text (max covered start) (min (start + cs) text.length) ++
          laySpansGo text (min (start + cs) text.length) _ = pySlice text covered text.length
        rw [Nat.max_eq_left hc1,
          ihlay (min (start + cs) text.length) (by omega) (by omega)]
        exact pySlice_glue text hc2 (by omega)

/-- C1 is false as stated: for `cexPage` with `chunkSize = 4` and
`overlap = 1` the all-whitespace middle window is dropped, consecutive
emitted pre-trim spans do not overlap by `overlap`, and laying the emitted
spans over the text does not reproduce it. -/
theorem chunk_page_windows_cex :
    ((0:Nat) < 4 ∧ (1:Nat) < 4 ∧ cexPage.text ≠ []) ∧
    laySpans cexPage.text (spansOf (chunk_page cexPage 4 1)) ≠ cexPage.text ∧
    ¬ List.Chain' (fun a b => b.1 + 1 = a.2) (spansOf (chunk_page cexPage 4 1)) := by
  refine ⟨by decide, by decide, ?_⟩
  intro hch
  have hsp : spansOf (chunk_page cexPage 4 1) = [(0, 4), (6, 10)] := by decide
  rw [hsp, List.chain'_cons] at hch
  exact absurd hch.1 (by decide)

/-- C1 (amended): provided additionally that every chunk-sized window of the
page text has non-whitespace content, the emitted spans start at offset 0,
advance by `chunkSize - overlap`, every window end is clipped to the text
length, consecutive pre-trim spans overlap by exactly `overlap`, the final
span ends at the text length, and laying all pre-trim spans over the page
text in order reproduces the original text. -/
theorem chunk_page_windows_amended (p : PDFPage) (cs ov : Nat)
    (hcs : 0 < cs) (hov : ov < cs) (hne : p.text ≠ [])
    (hw : ∀ s, s < p.text.length →
      pyStrip (pySlice p.text s (min (s + cs) p.text.length)) ≠ []) :
    (spansOf (chunk_page p cs ov)).head? = some (0, min cs p.text.length) ∧
    (∀ pr ∈ spansOf (chunk_page p cs ov), pr.2 = min (pr.1 + cs) p.text.length) ∧
    List.Chain' (fun a b => b.1 = a.1 + (cs - ov) ∧ b.1 + ov = a.2)
      (spansOf (chunk_page p cs ov)) ∧
    (∃ last, (spansOf (chunk_page p cs ov)).getLast? = some last ∧
      last.2 = p.text.length) ∧
    laySpans p.text (spansOf (chunk_page p cs ov)) = p.text := by
  unfold chunk_page
  rw [if_neg hne]
  have hlen : 0 < p.text.length := List.length_pos.mpr hne
  obtain ⟨h1, h2, h3, h4, h5⟩ :=
    chunkPageLoop_spans hcs hov hw p.text.length 0 0 hlen (by omega)
  refine ⟨by simpa using h1, h2, h3, h4, ?_⟩
  unfold laySpans
  rw [h5 0 le_rfl (by omega)]
  unfold pySlice
  simp

/-- Witness for C1 (amended) at a concrete input. -/
theorem chunk_page_windows_witness :
    laySpans densePage.text (spansOf (chunk_page densePage 3 1)) = densePage.text :=
  (chunk_page_windows_amended densePage 3 1 (by decide) (by decide) (by decide)
    (by decide)).2.2.2.2

/-! ### C4: chunk id uniqueness -/

theorem foldl_append_flatten {α β : Type} (f : α → List β) :
    ∀ (l : List α) (acc : List β),
      l.foldl (fun a x => a ++ f x) acc = acc ++ (l.map f).flatten := by
  intro l
  induction l with
  | nil => intro acc; simp
  | cons x l ih =>
    intro acc
    simp only [List.foldl_cons, List.map_cons, List.flatten_cons, ih, List.append_assoc]

theorem chunk_pages_eq (pages : List PDFPage) (cs ov : Nat) :
    chunk_pages pages cs ov = (pages.map (fun p => chunk_page p cs ov)).flatten := by
  unfold chunk_pages
  rw [foldl_append_flatten, List.nil_append]

theorem chunk_page_nodup_ids (p : PDFPage) {cs ov : Nat} (hcs : 0 < cs) (hov : ov < cs) :
    ((chunk_page p cs ov).map (fun c => c.chunk_id)).Nodup := by
  show ((chunk_page p cs ov).map (fun c => c.chunk_id)).Pairwise (· ≠ ·)
  rw [List.pairwise_map]
  unfold chunk_page
  by_cases h : p.text = []
  · simp [h]
  · rw [if_neg h]
    exact (chunkPageLoop_pairwise hcs hov p.text.length 0 0).imp (fun h => h.2)

theorem chunk_page_id_shape {p : PDFPage} {cs ov : Nat} (hcs : 0 < cs) (hov : ov < cs)
    {c : TextChunk} (hc : c ∈ chunk_page p cs ov) :
    ∃ j, c.chunk_id = mkChunkId p.pdf_name p.page_number j := by
  unfold chunk_page at hc
  by_cases h : p.text = []
  · rw [if_pos h] at hc
    simp at hc
  · rw [if_neg h] at hc
    obtain ⟨_, _, _, _, _, _, _, j, _, hj⟩ :=
      chunkPageLoop_mem hcs hov p.text.length 0 0 c hc
    exact ⟨j, hj⟩

/-- C4 is false as stated: feeding the same page twice to `chunk_pages`
produces the same chunkId twice, so chunkIds are not globally unique for
every input. -/
theorem chunk_ids_unique_cex :
    ¬ ((chunk_pages [cexPage, cexPage] 800 150).map (fun c => c.chunk_id)).Nodup := by
  decide

/-- C4 (amended): with valid windowing parameters, chunkIds are distinct
within any one page, and over any page list whose `(sourceName, pageNumber)`
pairs are pairwise distinct all chunkIds produced by `chunk_pages` are
globally unique.  The distinctness precondition is necessary:
duplicated pages give duplicated ids. -/
theorem chunk_ids_unique_amended (cs ov : Nat) (hcs : 0 < cs) (hov : ov < cs) :
    (∀ p : PDFPage, ((chunk_page p cs ov).map (fun c => c.chunk_id)).Nodup) ∧
    ∀ pages : List PDFPage,
      pages.Pairwise (fun p q => p.pdf_name ≠ q.pdf_name ∨ p.page_number ≠ q.page_number) →
      ((chunk_pages pages cs ov).map (fun c => c.chunk_id)).Nodup := by
  refine ⟨fun p => chunk_page_nodup_ids p hcs hov, ?_⟩
  intro pages hpw
  show ((chunk_pages pages cs ov).map (fun c => c.chunk_id)).Pairwise (· ≠ ·)
  rw [List.pairwise_map, chunk_pages_eq, List.pairwise_flatten]
  constructor
  · intro l hl
    rw [List.mem_map] at hl
    obtain ⟨p, _, rfl⟩ := hl
    have h2 : ((chunk_page p cs ov).map (fun c => c.chunk_id)).Pairwise (· ≠ ·) :=
      chunk_page_nodup_ids p hcs hov
    rw [List.pairwise_map] at h2
    exact h2
  · rw [List.pairwise_map]
    refine hpw.imp ?_
    intro p q hpq a ha b hb
    obtain ⟨j, hj⟩ := chunk_page_id_shape hcs hov ha
    obtain ⟨k, hk⟩ := chunk_page_id_shape hcs hov hb
    rw [hj, hk]
    intro heq
    obtain ⟨hn, hp, _⟩ := mkChunkId_inj heq
    rcases hpq with h | h
    · exact h hn
    · exact h hp

/-- Witness for C4 (amended) at a concrete input. -/
theorem chunk_ids_unique_witness :
    ((chunk_pages [densePage, densePage2] 4 1).map (fun c => c.chunk_id)).Nodup :=
  (chunk_ids_unique_amended 4 1 (by decide) (by decide)).2 [densePage, densePage2]
    (by decide)

/-! ### Sorting: permutation, descending order, stability -/

theorem insertCand_perm (c : Cand) (l : List Cand) : (insertCand c l).Perm (c :: l) := by
  induction l with
  | nil => exact List.Perm.refl _
  | cons d r ih =>
    rw [insertCand]
    by_cases h : d.score ≤ c.score
    · rw [if_pos h]
    · rw [if_neg h]
      exact (ih.cons d).trans (List.Perm.swap c d r)

theorem sortCands_perm (l : List Cand) : (sortCands l).Perm l := by
  induction l with
  | nil => exact List.Perm.refl _
  | cons c r ih =>
    rw [sortCands]
    exact (insertCand_perm c (sortCands r)).trans (ih.cons c)

theorem insertCand_sorted {c : Cand} {l : List Cand}
    (h : l.Pairwise (fun a b => b.score ≤ a.score)) :
    (insertCand c l).Pairwise (fun a b => b.score ≤ a.score) := by
  induction l with
  | nil => simp [insertCand]
  | cons d r ih =>
    rw [List.pairwise_cons] at h
    rw [insertCand]
    by_cases hd : d.score ≤ c.score
    · rw [if_pos hd, List.pairwise_cons]
      refine ⟨?_, List.pairwise_cons.mpr h⟩
      intro b hb
      rcases List.mem_cons.mp hb with rfl | hb
      · exact hd
      · exact le_trans (h.1 b hb) hd
    · rw [if_neg hd, List.pairwise_cons]
      refine ⟨?_, ih h.2⟩
      intro b hb
      rcases List.mem_cons.mp ((insertCand_perm c r).mem_iff.mp hb) with rfl | hb2
      · omega
      · exact h.1 b hb2

theorem sortCands_sorted (l : List Cand) :
    (sortCands l).Pairwise (fun a b => b.score ≤ a.score) := by
  induction l with
  | nil => simp [sortCands]
  | cons c r ih =>
    rw [sortCands]
    exact insertCand_sorted ih

theorem filter_insertCand_pos {c : Cand} {l : List Cand} {s : Nat}
    (hsorted : l.Pairwise (fun a b => b.score ≤ a.score)) (hc : c.score = s) :
    (insertCand c l).filter (fun x => x.score == s) =
      c :: l.filter (fun x => x.score == s) := by
  induction l with
  | nil => simp [insertCand, List.filter_cons, hc]
  | cons d r ih =>
    rw [List.pairwise_cons] at hsorted
    rw [insertCand]
    by_cases hd : d.score ≤ c.score
    · rw [if_pos hd, List.filter_cons, List.filter_cons]
      simp [hc]
    · rw [if_neg hd, List.filter_cons, List.filter_cons]
      have hdne : (d.score == s) = false := by
        rw [beq_eq_false_iff_ne]
        omega
      rw [hdne]
      simp only [Bool.false_eq_true, if_false]
      exact ih hsorted.2

theorem filter_insertCand_neg {c : Cand} {l : List Cand} {s : Nat} (hc : c.score ≠ s) :
    (insertCand c l).filter (fun x => x.score == s) =
      l.filter (fun x => x.score == s) := by
  induction l with
  | nil => simp [insertCand, List.filter_cons, hc]
  | cons d r ih =>
    rw [insertCand]
    by_cases hd : d.score ≤ c.score
    · rw [if_pos hd, List.filter_cons]
      have : (c.score == s) = false := by rwa [beq_eq_false_iff_ne]
      rw [this]
      simp
    · rw [if_neg hd, List.filter_cons, List.filter_cons]
      rw [ih]

theorem sortCands_stable (l : List Cand) (s : Nat) :
    (sortCands l).filter (fun x => x.score == s) = l.filter (fun x => x.score == s) := by
  induction l with
  | nil => rfl
  | cons c r ih =>
    rw [sortCands]
    by_cases hc : c.score = s
    · rw [filter_insertCand_pos (sortCands_sorted r) hc, ih, List.filter_cons]
      simp [hc]
    · rw [filter_insertCand_neg hc, ih, List.filter_cons]
      have : (c.score == s) = false := by rwa [beq_eq_false_iff_ne]
      rw [this]
      simp

/-! ### Selection loop and deduplication -/

theorem pickLoop_take (mb : Nat) :
    ∀ (cands : List Cand) (seen : List (List Char)) (bullets : List (List Char)),
      bullets.length < mb →
      pickLoop mb cands seen bullets =
        bullets ++ ((dedupByLower seen cands).take (mb - bullets.length)).map
          (fun c => fmtBullet c.sent c.cite) := by
  intro cands
  induction cands with
  | nil =>
    intro seen bullets h
    simp [pickLoop, dedupByLower]
  | cons c r ih =>
    intro seen bullets h
    simp only [pickLoop, dedupByLower]
    by_cases hk : seen.contains (lowerStr c.sent) = true
    · rw [if_pos hk, if_pos hk]
      exact ih seen bullets h
    · rw [if_neg hk, if_neg hk]
      by_cases hfull : mb ≤ (bullets ++ [fmtBullet c.sent c.cite]).length
      · rw [if_pos hfull]
        have hlen : mb - bullets.length = 1 := by
          rw [List.length_append] at hfull
          simp at hfull
          omega
        rw [hlen, List.take_succ_cons, List.take_zero, List.map_cons, List.map_nil]
      · rw [if_neg hfull]
        rw [ih (lowerStr c.sent :: seen) (bullets ++ [fmtBullet c.sent c.cite])
          (by rw [List.length_append] at hfull ⊢; simp at hfull ⊢; omega)]
        have hlen : mb - bullets.length = (mb - (bullets ++ [fmtBullet c.sent c.cite]).length) + 1 := by
          rw [List.length_append] at hfull ⊢
          simp at hfull ⊢
          omega
        rw [hlen, List.take_succ_cons, List.map_cons, List.append_assoc,
          List.singleton_append]

theorem pickLoop_mem {mb : Nat} : ∀ (cands : List Cand) (seen : List (List Char))
    (bullets : List (List Char)) (b : List Char), b ∈ pickLoop mb cands seen bullets →
    b ∈ bullets ∨ ∃ c ∈ cands, b = fmtBullet c.sent c.cite := by
  intro cands
  induction cands with
  | nil =>
    intro seen bullets b hb
    rw [pickLoop] at hb
    exact Or.inl hb
  | cons c r ih =>
    intro seen bullets b hb
    simp only [pickLoop] at hb
    by_cases hk : seen.contains (lowerStr c.sent) = true
    · rw [if_pos hk] at hb
      rcases ih seen bullets b hb with h | ⟨d, hd, rfl⟩
      · exact Or.inl h
      · exact Or.inr ⟨d, List.mem_cons_of_mem c hd, rfl⟩
    · rw [if_neg hk] at hb
      by_cases hfull : mb ≤ (bullets ++ [fmtBullet c.sent c.cite]).length
      · rw [if_pos hfull] at hb
        rcases List.mem_append.mp hb with h | h
        · exact Or.inl h
        · rw [List.mem_singleton] at h
          exact Or.inr ⟨c, List.mem_cons_self c r, h⟩
      · rw [if_neg hfull] at hb
        rcases ih (lowerStr c.sent :: seen) _ b hb with h | ⟨d, hd, rfl⟩
        · rcases List.mem_append.mp h with h2 | h2
          · exact Or.inl h2
          · rw [List.mem_singleton] at h2
            exact Or.inr ⟨c, List.mem_cons_self c r, h2⟩
        · exact Or.inr ⟨d, List.mem_cons_of_mem c hd, rfl⟩

theorem dedupByLower_mem {seen : List (List Char)} {l : List Cand} {c : Cand}
    (hc : c ∈ dedupByLower seen l) : c ∈ l := by
  induction l generalizing seen with
  | nil => simp [dedupByLower] at hc
  | cons d r ih =>
    rw [dedupByLower] at hc
    by_cases hk : seen.contains (lowerStr d.sent) = true
    · rw [if_pos hk] at hc
      exact List.mem_cons_of_mem d (ih hc)
    · rw [if_neg hk] at hc
      rcases List.mem_cons.mp hc with rfl | hc
      · exact List.mem_cons_self c r
      · exact List.mem_cons_of_mem d (ih hc)

theorem dedupByLower_eq_nil {l : List Cand} :
    dedupByLower [] l = [] ↔ l = [] := by
  cases l with
  | nil => simp [dedupByLower]
  | cons c r =>
    simp only [dedupByLower, List.contains_nil, Bool.false_eq_true, if_false]
    constructor
    · intro h
      cases h
    · intro h
      cases h

theorem build_eq {q : List Char} {chunks : List RetrievedChunk} {mb : Nat} (hmb : 1 ≤ mb) :
    build_extractive_answer q chunks mb =
      if dedupByLower [] (sortCands (candidatesOf q chunks)) = [] then [fallbackBullet]
      else ((dedupByLower [] (sortCands (candidatesOf q chunks))).take mb).map
        (fun c => fmtBullet c.sent c.cite) := by
  show (if pickLoop mb (sortCands (candidatesOf q chunks)) [] [] = []
      then [fallbackBullet] else pickLoop mb (sortCands (candidatesOf q chunks)) [] []) = _
  rw [pickLoop_take mb _ [] [] (by simpa using hmb)]
  simp only [List.nil_append, List.length_nil, Nat.sub_zero]
  by_cases h : dedupByLower [] (sortCands (candidatesOf q chunks)) = []
  · rw [if_pos h, h]
    simp
  · rw [if_neg h, if_neg ?_]
    obtain ⟨c, r, hcr⟩ := List.exists_cons_of_ne_nil h
    rw [hcr]
    cases mb with
    | zero => omega
    | succ m =>
      rw [List.take_succ_cons, List.map_cons]
      intro hcontra
      cases hcontra

/-! ### Candidate origin -/

theorem candidatesOf_mem {q : List Char} {chunks : List RetrievedChunk} {c : Cand}
    (hc : c ∈ candidatesOf q chunks) :
    ∃ ch ∈ chunks, c.sent ∈ _split_into_sentences ch.text ∧ c.cite = citationOf ch := by
  unfold candidatesOf at hc
  rw [List.mem_flatMap] at hc
  obtain ⟨ch, hch, hc2⟩ := hc
  unfold chunkCands at hc2
  rw [List.mem_filterMap] at hc2
  obtain ⟨sent, hsent, hsome⟩ := hc2
  refine ⟨ch, hch, ?_⟩
  by_cases hcond : (0 < _score_sentence sent (_keywords q) ∨ _keywords q = [])
  · rw [if_pos hcond] at hsome
    cases hsome
    exact ⟨hsent, rfl⟩
  · rw [if_neg hcond] at hsome
    cases hsome

/-! ### Sentences are substrings of the normalized text -/

theorem splitGo_substring : ∀ (l : List Char) (skipping : Bool) (acc part : List Char),
    part ∈ splitGo skipping acc l → SubstringOf part (acc.reverse ++ l) := by
  intro l
  induction l with
  | nil =>
    intro skipping acc part hp
    rw [splitGo] at hp
    by_cases hsk : skipping = true
    · rw [if_pos hsk] at hp
      rw [List.mem_singleton] at hp
      subst hp
      exact ⟨acc.reverse, [], by simp⟩
    · rw [if_neg hsk] at hp
      rw [List.mem_singleton] at hp
      subst hp
      exact ⟨[], [], by simp⟩
  | cons c r ih =>
    intro skipping acc part hp
    rw [splitGo] at hp
    by_cases hsk : skipping = true
    · rw [if_pos hsk] at hp
      by_cases hsp : isPySpace c = true
      · rw [if_pos hsp] at hp
        obtain ⟨x, y, hxy⟩ := ih true [] part hp
        simp only [List.reverse_nil, List.nil_append] at hxy
        exact ⟨acc.reverse ++ c :: x, y, by simp [hxy]⟩
      · rw [if_neg hsp] at hp
        obtain ⟨x, y, hxy⟩ := ih false [c] part hp
        simp only [List.reverse_cons, List.reverse_nil, List.nil_append,
          List.singleton_append] at hxy
        refine ⟨acc.reverse ++ x, y, ?_⟩
        rw [List.append_assoc, List.append_assoc, ← List.append_assoc x part y, ← hxy]
    · rw [if_neg hsk] at hp
      by_cases hcond : (isPySpace c && headIsSentEnd acc) = true
      · rw [if_pos hcond] at hp
        rcases List.mem_cons.mp hp with rfl | hp
        · exact ⟨[], c :: r, by simp⟩
        · obtain ⟨x, y, hxy⟩ := ih true [] part hp
          simp only [List.reverse_nil, List.nil_append] at hxy
          exact ⟨acc.reverse ++ c :: x, y, by simp [hxy]⟩
      · rw [if_neg hcond] at hp
        obtain ⟨x, y, hxy⟩ := ih false (c :: acc) part hp
        refine ⟨x, y, ?_⟩
        calc acc.reverse ++ c :: r = (c :: acc).reverse ++ r := by simp
        _ = x ++ part ++ y := hxy

theorem split_sentences_substring {text s : List Char}
    (hs : s ∈ _split_into_sentences text) : SubstringOf s (replaceNewlines text) := by
  unfold _split_into_sentences at hs
  by_cases h : pyStrip (replaceNewlines text) = []
  · simp [h] at hs
  · simp only [h, if_false, List.mem_filter, List.mem_map, decide_eq_true_eq] at hs
    obtain ⟨⟨part, hpart, rfl⟩, _⟩ := hs
    have h1 : SubstringOf part (pyStrip (replaceNewlines text)) := by
      have h2 := splitGo_substring _ false [] part hpart
      simpa using h2
    exact substring_trans (substring_trans (pyStrip_substring part) h1)
      (pyStrip_substring (replaceNewlines text))

/-! ### C5: ranking, deduplication and bullet formatting -/

/-- C5 is false as stated: with `max_bullets = 0` the source emits one
bullet rather than at most zero, because the length check runs only after
the first append. -/
theorem answer_pipeline_cex :
    ¬ ((build_extractive_answer ("the".toList) [plainChunk] 0).length ≤ 0) := by
  decide

/-- C5 (amended): for `maxBullets ≥ 1`, candidates are sorted by score
descending (a permutation in descending order) with stable ties (the
filter-by-score projections are preserved, so original traversal order
survives among equal scores), deduplicated by lowered sentence text keeping
the first occurrence, at most `maxBullets` are kept, and each bullet is
formatted `"- {sentence} {citation}"`; for `maxBullets ≤ 0` the source still
emits one bullet, which the amendment excludes. -/
theorem answer_pipeline_amended (q : List Char) (chunks : List RetrievedChunk)
    (mb : Nat) (hmb : 1 ≤ mb) :
    (sortCands (candidatesOf q chunks)).Perm (candidatesOf q chunks) ∧
    (sortCands (candidatesOf q chunks)).Pairwise (fun a b => b.score ≤ a.score) ∧
    (∀ s : Nat, (sortCands (candidatesOf q chunks)).filter (fun x => x.score == s) =
      (candidatesOf q chunks).filter (fun x => x.score == s)) ∧
    build_extractive_answer q chunks mb =
      (if dedupByLower [] (sortCands (candidatesOf q chunks)) = [] then [fallbackBullet]
       else ((dedupByLower [] (sortCands (candidatesOf q chunks))).take mb).map
         (fun c => fmtBullet c.sent c.cite)) ∧
    (build_extractive_answer q chunks mb).length ≤ mb := by
  refine ⟨sortCands_perm _, sortCands_sorted _, fun s => sortCands_stable _ s,
    build_eq hmb, ?_⟩
  rw [build_eq hmb]
  by_cases h : dedupByLower [] (sortCands (candidatesOf q chunks)) = []
  · rw [if_pos h]
    simpa using hmb
  · rw [if_neg h, List.length_map, List.length_take]
    omega

/-- Witness for C5 (amended) at a concrete input. -/
theorem answer_pipeline_witness :
    (build_extractive_answer ("the".toList) [plainChunk] 5).length ≤ 5 :=
  (answer_pipeline_amended ("the".toList) [plainChunk] 5 (by decide)).2.2.2.2

/-! ### C6: the fallback path and totality -/

/-- C6: for `maxBullets ≥ 1` the extractor never returns an empty list (the
embedding is a total function, so no exception path exists): with no
surviving candidates it returns exactly the fixed fallback line, otherwise
between 1 and `maxBullets` bullets. -/
theorem answer_fallback_total (q : List Char) (chunks : List RetrievedChunk)
    (mb : Nat) (hmb : 1 ≤ mb) :
    build_extractive_answer q chunks mb ≠ [] ∧
    (candidatesOf q chunks = [] → build_extractive_answer q chunks mb = [fallbackBullet]) ∧
    (candidatesOf q chunks ≠ [] →
      1 ≤ (build_extractive_answer q chunks mb).length ∧
      (build_extractive_answer q chunks mb).length ≤ mb) := by
  have hsort : sortCands (candidatesOf q chunks) = [] ↔ candidatesOf q chunks = [] := by
    constructor
    · intro h
      have hp := (sortCands_perm (candidatesOf q chunks)).length_eq
      rw [h] at hp
      exact List.length_eq_zero.mp hp.symm
    · intro h
      rw [h]
      rfl
  rw [build_eq hmb]
  by_cases h : dedupByLower [] (sortCands (candidatesOf q chunks)) = []
  · rw [if_pos h]
    have hc : candidatesOf q chunks = [] := hsort.mp (dedupByLower_eq_nil.mp h)
    exact ⟨by simp, fun _ => rfl, fun hne => absurd hc hne⟩
  · rw [if_neg h]
    obtain ⟨d, r, hdr⟩ := List.exists_cons_of_ne_nil h
    rw [hdr]
    cases mb with
    | zero => omega
    | succ m =>
      rw [List.take_succ_cons, List.map_cons]
      refine ⟨by simp, ?_, ?_⟩
      · intro hce
        exact absurd (dedupByLower_eq_nil.mpr (hsort.mpr hce)) h
      · intro _
        constructor
        · simp
        · rw [List.length_cons, List.length_map, List.length_take]
          omega

/-- Witness for C6 at a concrete input. -/
theorem answer_fallback_total_witness :
    build_extractive_answer ("the".toList) [] 5 = [fallbackBullet] :=
  (answer_fallback_total ("the".toList) [] 5 (by decide)).2.1 (by decide)

/-! ### C7: the extractive verbatim guarantee -/

/-- C7 is false as stated: `_split_into_sentences` first replaces newlines
by spaces, so a sentence spanning a newline in the chunk text is emitted
with a space there and is not a verbatim substring of the chunk text. -/
theorem answer_verbatim_cex :
    build_extractive_answer ("the".toList) [nlChunk] 5 = [fmtBullet nlSent unknownCite] ∧
    fmtBullet nlSent unknownCite ≠ fallbackBullet ∧
    ¬ SubstringOf nlSent nlChunk.text := by
  refine ⟨by decide, by decide, ?_⟩
  intro hsub
  have hc := (containsStr_iff nlChunk.text nlSent).mpr hsub
  exact absurd hc (by decide)

/-- C7 (amended): every bullet emitted by `build_extractive_answer` is the
fallback line or formats a sentence that is a verbatim substring of the
newline-normalized (newline replaced by space) text of some retrieved
chunk, together with a citation. -/
theorem answer_verbatim_amended (q : List Char) (chunks : List RetrievedChunk)
    (mb : Nat) (b : List Char) (hb : b ∈ build_extractive_answer q chunks mb) :
    b = fallbackBullet ∨ ∃ ch ∈ chunks, ∃ s cit, b = fmtBullet s cit ∧
      SubstringOf s (replaceNewlines ch.text) := by
  have hb' : b ∈ (if pickLoop mb (sortCands (candidatesOf q chunks)) [] [] = []
      then [fallbackBullet] else pickLoop mb (sortCands (candidatesOf q chunks)) [] []) := hb
  by_cases h : pickLoop mb (sortCands (candidatesOf q chunks)) [] [] = []
  · rw [if_pos h, List.mem_singleton] at hb'
    exact Or.inl hb'
  · rw [if_neg h] at hb'
    rcases pickLoop_mem _ [] [] b hb' with h2 | ⟨c, hc, rfl⟩
    · simp at h2
    · have hc2 : c ∈ candidatesOf q chunks := (sortCands_perm _).mem_iff.mp hc
      obtain ⟨ch, hch, hsent, _⟩ := candidatesOf_mem hc2
      exact Or.inr ⟨ch, hch, c.sent, c.cite, rfl, split_sentences_substring hsent⟩

/-- Witness for C7 (amended) at a concrete input. -/
theorem answer_verbatim_witness :
    fmtBullet ("this is one sufficiently long example sentence.".toList) unknownCite =
      fallbackBullet ∨
    ∃ ch ∈ [plainChunk], ∃ s cit,
      fmtBullet ("this is one sufficiently long example sentence.".toList) unknownCite =
        fmtBullet s cit ∧
      SubstringOf s (replaceNewlines ch.text) :=
  answer_verbatim_amended ("the".toList) [plainChunk] 5 _ (by decide)

/-! ### C2: JSONL round trip, character-level facts -/

theorem hexDigitChar_hexVal {d : Nat} (h : d < 16) : hexVal (hexDigitChar d) = some d := by
  interval_cases d <;> decide

theorem hexDigitChar_ne_nl {d : Nat} (h : d < 16) : hexDigitChar d ≠ '\n' := by
  interval_cases d <;> decide

theorem jsonEscapeChar_length_pos (c : Char) : 0 < (jsonEscapeChar c).length := by
  unfold jsonEscapeChar
  split_ifs <;> simp

theorem jsonEscape_length_ge (s : List Char) : s.length ≤ (jsonEscape s).length := by
  induction s with
  | nil => simp [jsonEscape]
  | cons c r ih =>
    unfold jsonEscape at ih ⊢
    rw [List.flatMap_cons, List.length_append, List.length_cons]
    have := jsonEscapeChar_length_pos c
    omega

theorem mem_jsonEscapeChar_ne_nl {c x : Char} (hx : x ∈ jsonEscapeChar c) : x ≠ '\n' := by
  unfold jsonEscapeChar at hx
  split_ifs at hx with h1 h2 h3 h4 h5 h6 h7 h8
  all_goals simp only [List.mem_cons, List.not_mem_nil, or_false] at hx
  · rcases hx with rfl | rfl <;> decide
  · rcases hx with rfl | rfl <;> decide
  · rcases hx with rfl | rfl <;> decide
  · rcases hx with rfl | rfl <;> decide
  · rcases hx with rfl | rfl <;> decide
  · rcases hx with rfl | rfl <;> decide
  · rcases hx with rfl | rfl <;> decide
  · rcases hx with rfl | rfl | rfl | rfl | rfl | rfl
    · decide
    · decide
    · decide
    · decide
    · exact hexDigitChar_ne_nl (by omega)
    · exact hexDigitChar_ne_nl (by omega)
  · subst hx
    exact h5

theorem mem_jsonQuote_ne_nl {s : List Char} {x : Char} (hx : x ∈ jsonQuote s) : x ≠ '\n' := by
  unfold jsonQuote at hx
  rcases List.mem_cons.mp hx with rfl | hx
  · decide
  · rcases List.mem_append.mp hx with hx | hx
    · unfold jsonEscape at hx
      rw [List.mem_flatMap] at hx
      obtain ⟨c, _, hc⟩ := hx
      exact mem_jsonEscapeChar_ne_nl hc
    · rw [List.mem_singleton] at hx
      subst hx
      decide

theorem digit_ne_nl {c : Char} (h : isDigitCh c = true) : c ≠ '\n' := by
  intro he
  subst he
  exact absurd h (by decide)

theorem mem_encJVal_ne_nl {v : JVal} {x : Char} (hx : x ∈ encJVal v) : x ≠ '\n' := by
  cases v with
  | jstr s => exact mem_jsonQuote_ne_nl hx
  | jnat n => exact digit_ne_nl (natToChars_digits n x hx)

theorem mem_memberEnc_ne_nl {k : List Char} {v : JVal} {tail : List Char} {x : Char}
    (htail : ∀ y ∈ tail, y ≠ '\n') (hx : x ∈ memberEnc k v tail) : x ≠ '\n' := by
  unfold memberEnc at hx
  rcases List.mem_append.mp hx with hx | hx
  · rcases List.mem_append.mp hx with hx | hx
    · exact mem_jsonQuote_ne_nl hx
    · rcases List.mem_cons.mp hx with rfl | hx
      · decide
      · rcases List.mem_cons.mp hx with rfl | hx
        · decide
        · exact mem_encJVal_ne_nl hx
  · exact htail x hx

theorem mem_dumpChunk_ne_nl {c : TextChunk} {x : Char} (hx : x ∈ dumpChunk c) : x ≠ '\n' := by
  unfold dumpChunk at hx
  rcases List.mem_cons.mp hx with rfl | hx
  · decide
  · refine mem_memberEnc_ne_nl ?_ hx
    intro y hy
    rcases List.mem_cons.mp hy with rfl | hy
    · decide
    · rcases List.mem_cons.mp hy with rfl | hy
      · decide
      · refine mem_memberEnc_ne_nl ?_ hy
        intro y hy
        rcases List.mem_cons.mp hy with rfl | hy
        · decide
        · rcases List.mem_cons.mp hy with rfl | hy
          · decide
          · refine mem_memberEnc_ne_nl ?_ hy
            intro y hy
            rcases List.mem_cons.mp hy with rfl | hy
            · decide
            · rcases List.mem_cons.mp hy with rfl | hy
              · decide
              · refine mem_memberEnc_ne_nl ?_ hy
                intro y hy
                rcases List.mem_cons.mp hy with rfl | hy
                · decide
                · rcases List.mem_cons.mp hy with rfl | hy
                  · decide
                  · refine mem_memberEnc_ne_nl ?_ hy
                    intro y hy
                    rcases List.mem_cons.mp hy with rfl | hy
                    · decide
                    · rcases List.mem_cons.mp hy with rfl | hy
                      · decide
                      · refine mem_memberEnc_ne_nl ?_ hy
                        intro y hy
                        rw [List.mem_singleton] at hy
                        subst hy
                        decide

/-! ### C2: line splitting of the saved stream -/

theorem splitLinesGo_line : ∀ (x acc rest : List Char), (∀ c ∈ x, c ≠ '\n') →
    splitLinesGo acc (x ++ '\n' :: rest) =
      ((acc.reverse ++ x) ++ ['\n']) :: splitLinesGo [] rest := by
  intro x
  induction x with
  | nil =>
    intro acc rest _
    rw [List.nil_append, splitLinesGo, if_pos rfl, List.append_nil]
  | cons c x ih =>
    intro acc rest h
    rw [List.cons_append, splitLinesGo, if_neg (h c (List.mem_cons_self c x)),
      ih (c :: acc) rest (fun y hy => h y (List.mem_cons_of_mem c hy))]
    simp [List.append_assoc]

theorem save_eq_flatten (chunks : List TextChunk) :
    save_chunks_jsonl chunks = (chunks.map (fun c => dumpChunk c ++ ['\n'])).flatten := by
  unfold save_chunks_jsonl
  rw [show (fun (acc : List Char) (c : TextChunk) => acc ++ dumpChunk c ++ ['\n']) =
      (fun acc c => acc ++ (dumpChunk c ++ ['\n'])) from by
    funext acc c
    rw [List.append_assoc]]
  rw [foldl_append_flatten, List.nil_append]

theorem splitLines_flatten (chunks : List TextChunk) :
    splitLines ((chunks.map (fun c => dumpChunk c ++ ['\n'])).flatten) =
      chunks.map (fun c => dumpChunk c ++ ['\n']) := by
  unfold splitLines
  induction chunks with
  | nil => rfl
  | cons c r ih =>
    rw [List.map_cons, List.flatten_cons, List.append_assoc, List.singleton_append,
      splitLinesGo_line (dumpChunk c) [] _ (fun y hy => mem_dumpChunk_ne_nl hy)]
    rw [List.reverse_nil, List.nil_append, ih]

/-! ### C2: string and number parsing round trips -/

theorem parseStrBody_escapeChar (c : Char) (rest : List Char) (fuel : Nat) :
    parseStrBody (fuel + 1) (jsonEscapeChar c ++ rest) =
      (parseStrBody fuel rest).map (fun p => (c :: p.1, p.2)) := by
  unfold jsonEscapeChar
  split_ifs with h1 h2 h3 h4 h5 h6 h7 h8
  · subst h1
    simp [parseStrBody]
  · subst h2
    simp [parseStrBody]
  · subst h3
    simp [parseStrBody]
  · subst h4
    simp [parseStrBody]
  · subst h5
    simp [parseStrBody]
  · subst h6
    simp [parseStrBody]
  · subst h7
    simp [parseStrBody]
  · have hhi : c.toNat / 16 < 16 := by omega
    have hlo : c.toNat % 16 < 16 := by omega
    have hval : c.toNat / 16 * 16 + c.toNat % 16 = c.toNat := by omega
    simp [parseStrBody, show hexVal '0' = some 0 from by decide,
      hexDigitChar_hexVal hhi, hexDigitChar_hexVal hlo, hval, Char.ofNat_toNat]
  · simp only [List.cons_append, List.nil_append, parseStrBody, if_neg h1, if_neg h2]
    rfl

theorem parseStrBody_escape (s : List Char) : ∀ (rest : List Char) (fuel : Nat),
    s.length < fuel → parseStrBody fuel (jsonEscape s ++ '"' :: rest) = some (s, rest) := by
  induction s with
  | nil =>
    intro rest fuel h
    cases fuel with
    | zero => omega
    | succ f => simp [jsonEscape, parseStrBody]
  | cons c s ih =>
    intro rest fuel h
    cases fuel with
    | zero => omega
    | succ f =>
      rw [show jsonEscape (c :: s) = jsonEscapeChar c ++ jsonEscape s from by
          simp [jsonEscape],
        List.append_assoc, parseStrBody_escapeChar,
        ih rest f (by simpa using h)]
      rfl

theorem parseJString_quote (s rest : List Char) :
    parseJString (jsonQuote s ++ rest) = some (s, rest) := by
  have hshape : jsonQuote s ++ rest = '"' :: (jsonEscape s ++ '"' :: rest) := by
    simp [jsonQuote]
  rw [hshape, parseJString, if_pos rfl]
  apply parseStrBody_escape
  rw [List.length_append]
  have := jsonEscape_length_ge s
  simp only [List.length_cons]
  omega

theorem takeWhile_append_of_all {p : Char → Bool} : ∀ (a b : List Char),
    (∀ c ∈ a, p c = true) →
    List.takeWhile p (a ++ b) = a ++ List.takeWhile p b ∧
    List.dropWhile p (a ++ b) = List.dropWhile p b := by
  intro a
  induction a with
  | nil =>
    intro b _
    simp
  | cons c r ih =>
    intro b h
    have hc : p c = true := h c (List.mem_cons_self c r)
    obtain ⟨h1, h2⟩ := ih b (fun d hd => h d (List.mem_cons_of_mem c hd))
    rw [List.cons_append, List.takeWhile_cons, List.dropWhile_cons]
    rw [hc]
    simp only [if_true]
    exact ⟨by rw [h1, List.cons_append], h2⟩

theorem takeWhile_head_false {p : Char → Bool} {b : List Char}
    (h : ∀ c r, b = c :: r → p c = false) :
    List.takeWhile p b = [] ∧ List.dropWhile p b = b := by
  cases b with
  | nil => simp
  | cons c r =>
    rw [List.takeWhile_cons, List.dropWhile_cons, h c r rfl]
    simp

theorem foldl_reverse_val : ∀ dr : List Char,
    dr.reverse.foldl (fun a c => a * 10 + (c.toNat - 48)) 0 = digitsRevVal dr := by
  intro dr
  induction dr with
  | nil => rfl
  | cons c r ih =>
    rw [List.reverse_cons, List.foldl_append, ih, List.foldl_cons, List.foldl_nil,
      digitsRevVal]
    omega

theorem foldl_natToChars (n : Nat) :
    (natToChars n).foldl (fun a c => a * 10 + (c.toNat - 48)) 0 = n := by
  have h := foldl_reverse_val (natToChars n).reverse
  rw [List.reverse_reverse] at h
  rw [h, natToChars_val]

theorem parseJNum_natToChars (n : Nat) (rest : List Char)
    (hrest : ∀ c r, rest = c :: r → isDigitCh c = false) :
    parseJNum (natToChars n ++ rest) = some (n, rest) := by
  obtain ⟨ht2, hd2⟩ := takeWhile_head_false (p := isDigitCh) hrest
  obtain ⟨ht, hd⟩ := takeWhile_append_of_all (natToChars n) rest (natToChars_digits n)
  simp only [parseJNum, ht, hd, ht2, hd2, List.append_nil]
  rw [if_neg (natToChars_ne_nil n), foldl_natToChars]

/-! ### C2: members and objects -/

theorem skipWs_cons_of {c : Char} (h : isPySpace c = false) (l : List Char) :
    skipWs (c :: l) = c :: l := by
  rw [skipWs, List.dropWhile_cons, h]
  simp

theorem digit_not_space {c : Char} (h : isDigitCh c = true) : isPySpace c = false := by
  have h2 : 48 ≤ c.toNat ∧ c.toNat ≤ 57 := by simpa [isDigitCh] using h
  have hne : ∀ d : Char, d.toNat < 48 → (c == d) = false := by
    intro d hd
    rw [beq_eq_false_iff_ne]
    intro he
    rw [he] at h2
    omega
  rw [isPySpace, hne ' ' (by decide), hne '\t' (by decide), hne '\n' (by decide),
    hne '\r' (by decide), hne '\x0B' (by decide), hne '\x0C' (by decide)]
  rfl

theorem digit_ne_quote {c : Char} (h : isDigitCh c = true) : ¬ c = '"' := by
  intro he
  subst he
  exact absurd h (by decide)

theorem natToChars_shape (n : Nat) : ∃ d ds, natToChars n = d :: ds ∧ isDigitCh d = true := by
  obtain ⟨d, ds, hds⟩ := List.exists_cons_of_ne_nil (natToChars_ne_nil n)
  exact ⟨d, ds, hds, natToChars_digits n d (by rw [hds]; exact List.mem_cons_self d ds)⟩

theorem skipWs_encJVal (v : JVal) (tail : List Char) :
    skipWs (encJVal v ++ tail) = encJVal v ++ tail := by
  cases v with
  | jstr s =>
    have hshape : encJVal (JVal.jstr s) ++ tail = '"' :: (jsonEscape s ++ '"' :: tail) := by
      simp [encJVal, jsonQuote]
    rw [hshape, skipWs_cons_of (by decide)]
  | jnat n =>
    obtain ⟨d, ds, hds, hdig⟩ := natToChars_shape n
    have hshape : encJVal (JVal.jnat n) ++ tail = d :: (ds ++ tail) := by
      simp [encJVal, hds]
    rw [hshape, skipWs_cons_of (digit_not_space hdig)]

theorem parseJVal_enc (v : JVal) (tail : List Char)
    (hnum : ∀ m : Nat, v = JVal.jnat m → ∀ c r, tail = c :: r → isDigitCh c = false) :
    parseJVal (encJVal v ++ tail) = some (v, tail) := by
  cases v with
  | jstr s =>
    have hshape : encJVal (JVal.jstr s) ++ tail = '"' :: (jsonEscape s ++ '"' :: tail) := by
      simp [encJVal, jsonQuote]
    rw [hshape, parseJVal, if_pos rfl]
    rw [parseStrBody_escape s tail _ (by
      rw [List.length_append]
      have := jsonEscape_length_ge s
      simp only [List.length_cons]
      omega)]
    rfl
  | jnat n =>
    obtain ⟨d, ds, hds, hdig⟩ := natToChars_shape n
    have hshape : encJVal (JVal.jnat n) ++ tail = d :: (ds ++ tail) := by
      simp [encJVal, hds]
    rw [hshape, parseJVal, if_neg (digit_ne_quote hdig)]
    rw [show d :: (ds ++ tail) = natToChars n ++ tail from by simp [hds]]
    rw [parseJNum_natToChars n tail (hnum n rfl)]
    rfl

theorem memberEnc_head (k : List Char) (v : JVal) (tail : List Char) :
    memberEnc k v tail = '"' :: (jsonEscape k ++ '"' :: (':' :: ' ' :: (encJVal v ++ tail))) := by
  simp [memberEnc, jsonQuote]

theorem skipWs_memberEnc (k : List Char) (v : JVal) (tail : List Char) :
    skipWs (memberEnc k v tail) = memberEnc k v tail := by
  rw [memberEnc_head, skipWs_cons_of (by decide)]

theorem parseJString_memberEnc (k : List Char) (v : JVal) (tail : List Char) :
    parseJString (memberEnc k v tail) = some (k, ':' :: ' ' :: (encJVal v ++ tail)) := by
  have hshape : memberEnc k v tail = jsonQuote k ++ (':' :: ' ' :: (encJVal v ++ tail)) := by
    simp [memberEnc]
  rw [hshape, parseJString_quote]

theorem parseMembers_step (fuel : Nat) (k : List Char) (v : JVal) (tail : List Char)
    (hnum : ∀ m : Nat, v = JVal.jnat m → ∀ c r, tail = c :: r → isDigitCh c = false)
    (hsp : ∀ c r, tail = c :: r → isPySpace c = false) :
    parseMembers (fuel + 1) (memberEnc k v tail) =
      (match tail with
       | [] => none
       | c7 :: r7 =>
         if c7 = ',' then (parseMembers fuel (skipWs r7)).map (fun p => ((k, v) :: p.1, p.2))
         else if c7 = '\x7d' then some ([(k, v)], r7)
         else none) := by
  have h1 := parseJString_memberEnc k v tail
  have h2 : skipWs (' ' :: (encJVal v ++ tail)) = encJVal v ++ tail := by
    rw [skipWs, List.dropWhile_cons]
    rw [show isPySpace ' ' = true from by decide]
    simp only [if_true]
    exact skipWs_encJVal v tail
  have h3 := parseJVal_enc v tail hnum
  cases tail with
  | nil =>
    simp only [List.append_nil] at h1 h2 h3
    simp [parseMembers, h1, h2, h3,
      skipWs_cons_of (show isPySpace ':' = false from by decide),
      show skipWs ([] : List Char) = [] from rfl]
  | cons c7 r7 =>
    simp [parseMembers, h1, h2, h3,
      skipWs_cons_of (show isPySpace ':' = false from by decide),
      skipWs_cons_of (hsp c7 r7 rfl)]

theorem parseMembers_comma (fuel : Nat) (k : List Char) (v : JVal) (rest : List Char)
    (hrest : skipWs rest = rest) :
    parseMembers (fuel + 1) (memberEnc k v (',' :: ' ' :: rest)) =
      (parseMembers fuel rest).map (fun p => ((k, v) :: p.1, p.2)) := by
  rw [parseMembers_step fuel k v (',' :: ' ' :: rest)
    (fun m hm c r h => by cases h; decide) (fun c r h => by cases h; decide)]
  have hskip : skipWs (' ' :: rest) = rest := by
    rw [skipWs, List.dropWhile_cons]
    rw [show isPySpace ' ' = true from by decide]
    simp only [if_true]
    exact hrest
  simp [hskip]

theorem parseMembers_last (fuel : Nat) (k : List Char) (v : JVal) (rest : List Char) :
    parseMembers (fuel + 1) (memberEnc k v ('\x7d' :: rest)) = some ([(k, v)], rest) := by
  rw [parseMembers_step fuel k v ('\x7d' :: rest)
    (fun m hm c r h => by cases h; decide) (fun c r h => by cases h; decide)]
  simp

theorem memberEnc_append (k : List Char) (v : JVal) (t x : List Char) :
    memberEnc k v t ++ x = memberEnc k v (t ++ x) := by
  simp [memberEnc, List.append_assoc]

theorem parseObj_memberEnc (k : List Char) (v : JVal) (tail : List Char) :
    parseObj ('\x7b' :: memberEnc k v tail) =
      parseMembers ((memberEnc k v tail).length + 1) (memberEnc k v tail) := by
  rw [memberEnc_head]
  simp [parseObj, skipWs_cons_of (show isPySpace '\x7b' = false from by decide),
    skipWs_cons_of (show isPySpace '"' = false from by decide),
    show ¬ ('"' : Char) = '\x7d' from by decide]

theorem memberEnc_length_ge (k : List Char) (v : JVal) (t : List Char) :
    k.length + 4 ≤ (memberEnc k v t).length := by
  rw [memberEnc_head]
  simp only [List.length_cons, List.length_append]
  have := jsonEscape_length_ge k
  omega

theorem parseObj_dump (c : TextChunk) :
    parseObj (dumpChunk c ++ ['\n']) = some ([(kChunkId, .jstr c.chunk_id),
      (kPdfName, .jstr c.pdf_name), (kPageNumber, .jnat c.page_number),
      (kText, .jstr c.text), (kCharStart, .jnat c.char_start),
      (kCharEnd, .jnat c.char_end)], ['\n']) := by
  have hshape : dumpChunk c ++ ['\n'] = '\x7b' :: memberEnc kChunkId (.jstr c.chunk_id) (',' :: ' ' :: memberEnc kPdfName (.jstr c.pdf_name) (',' :: ' ' :: memberEnc kPageNumber (.jnat c.page_number) (',' :: ' ' :: memberEnc kText (.jstr c.text) (',' :: ' ' :: memberEnc kCharStart (.jnat c.char_start) (',' :: ' ' :: memberEnc kCharEnd (.jnat c.char_end) ('\x7d' :: ['\n'])))))) := by
    simp [dumpChunk, memberEnc_append]
  have hK : kChunkId.length = 8 := rfl
  have hlen : 6 ≤ (memberEnc kChunkId (.jstr c.chunk_id) (',' :: ' ' :: memberEnc kPdfName (.jstr c.pdf_name) (',' :: ' ' :: memberEnc kPageNumber (.jnat c.page_number) (',' :: ' ' :: memberEnc kText (.jstr c.text) (',' :: ' ' :: memberEnc kCharStart (.jnat c.char_start) (',' :: ' ' :: memberEnc kCharEnd (.jnat c.char_end) ('\x7d' :: ['\n']))))))).length := by
    have := memberEnc_length_ge kChunkId (.jstr c.chunk_id)
      (',' :: ' ' :: memberEnc kPdfName (.jstr c.pdf_name) (',' :: ' ' :: memberEnc kPageNumber (.jnat c.page_number) (',' :: ' ' :: memberEnc kText (.jstr c.text) (',' :: ' ' :: memberEnc kCharStart (.jnat c.char_start) (',' :: ' ' :: memberEnc kCharEnd (.jnat c.char_end) ('\x7d' :: ['\n']))))))
    omega
  obtain ⟨g, hg⟩ : ∃ g, (memberEnc kChunkId (.jstr c.chunk_id) (',' :: ' ' :: memberEnc kPdfName (.jstr c.pdf_name) (',' :: ' ' :: memberEnc kPageNumber (.jnat c.page_number) (',' :: ' ' :: memberEnc kText (.jstr c.text) (',' :: ' ' :: memberEnc kCharStart (.jnat c.char_start) (',' :: ' ' :: memberEnc kCharEnd (.jnat c.char_end) ('\x7d' :: ['\n']))))))).length + 1 = g + 6 :=
    ⟨(memberEnc kChunkId (.jstr c.chunk_id) (',' :: ' ' :: memberEnc kPdfName (.jstr c.pdf_name) (',' :: ' ' :: memberEnc kPageNumber (.jnat c.page_number) (',' :: ' ' :: memberEnc kText (.jstr c.text) (',' :: ' ' :: memberEnc kCharStart (.jnat c.char_start) (',' :: ' ' :: memberEnc kCharEnd (.jnat c.char_end) ('\x7d' :: ['\n']))))))).length - 5, by omega⟩
  rw [hshape, parseObj_memberEnc, hg, show g + 6 = g + 5 + 1 from by omega,
    parseMembers_comma (g + 5) _ _ _ (skipWs_memberEnc _ _ _),
    show g + 5 = g + 4 + 1 from by omega,
    parseMembers_comma (g + 4) _ _ _ (skipWs_memberEnc _ _ _),
    show g + 4 = g + 3 + 1 from by omega,
    parseMembers_comma (g + 3) _ _ _ (skipWs_memberEnc _ _ _),
    show g + 3 = g + 2 + 1 from by omega,
    parseMembers_comma (g + 2) _ _ _ (skipWs_memberEnc _ _ _),
    show g + 2 = g + 1 + 1 from by omega,
    parseMembers_comma (g + 1) _ _ _ (skipWs_memberEnc _ _ _),
    parseMembers_last g]
  rfl

set_option maxRecDepth 4000 in
theorem applyKwargs_fields (a b t : List Char) (p s e : Nat) :
    applyKwargs [(kChunkId, .jstr a), (kPdfName, .jstr b), (kPageNumber, .jnat p),
      (kText, .jstr t), (kCharStart, .jnat s), (kCharEnd, .jnat e)] =
      some ⟨a, b, p, t, s, e⟩ := rfl

theorem parseChunkLine_dump (c : TextChunk) :
    parseChunkLine (dumpChunk c ++ ['\n']) = some c := by
  simp [parseChunkLine, parseObj_dump, show skipWs ['\n'] = [] from rfl,
    applyKwargs_fields]

/-- C2: decoding the encoded JSONL stream returns a sequence equal field for
field to the original: `load_chunks_jsonl (save_chunks_jsonl chunks)`
recovers every chunk exactly, for arbitrary chunk contents (non-ASCII
characters, quotes, backslashes and control characters included). -/
theorem jsonl_round_trip (chunks : List TextChunk) :
    load_chunks_jsonl (save_chunks_jsonl chunks) = some chunks := by
  unfold load_chunks_jsonl
  rw [save_eq_flatten, splitLines_flatten]
  induction chunks with
  | nil => rfl
  | cons c r ih =>
    rw [List.map_cons, loadLinesGo, parseChunkLine_dump, ih]
    rfl

end RagPapers
